import Mathlib

/-!
AddLicense (`src/main.c`): the LPic / STR# / RTF update of an unflattened disk image.

A shallow embedding of `main` from the point where the language has been
canonicalised (line 113 of `src/main.c`) to the end of the run.  The Carbon
services the program calls are modelled as follows.

* The resource fork is a store keyed by `(type, id)`: `Get1Resource` is a lookup,
  `RemoveResource` clears a key, `AddResource` / `ChangedResource` set a key.
  `main` only ever adds at a key it has just cleared or found empty.
* Handles are byte lists; 16-bit fields are read and written big-endian, which is
  what `OSSwapBigToHostInt16` / `OSSwapHostToBigInt16` make of them on any host.
* `SInt16` values are `Int` reduced by `toSInt16`; `UInt16` values are `Nat`
  reduced modulo `65536`.
* A read outside the LPic handle has no behaviour defined by the source; the model
  reports it as `Outcome.outOfBounds`.
-/

namespace AddLicense

/-! ## Bytes and 16-bit fields -/

abbrev Byte := Fin 256

/-- Low eight bits of a number, as a byte. -/
def byteOf (n : Nat) : Byte := ⟨n % 256, Nat.mod_lt _ (by decide)⟩

/-- Two-byte big-endian image of the low sixteen bits of `v`. -/
def be16 (v : Nat) : List Byte := [byteOf (v / 256), byteOf v]

/-- Read of a big-endian `UInt16` field at byte offset `k`; `none` when the field is
not wholly inside the handle. -/
def rd16 (h : List Byte) (k : Nat) : Option Nat :=
  match h[k]?, h[k + 1]? with
  | some a, some b => some (a.val * 256 + b.val)
  | _, _ => none

/-- Store of a big-endian `UInt16` field at byte offset `k` (the value is truncated
to sixteen bits, as the assignment to a `UInt16` lvalue does). -/
def wr16 (h : List Byte) (k v : Nat) : List Byte :=
  (h.set k (byteOf (v / 256))).set (k + 1) (byteOf v)

/-- Conversion of an `int` to `SInt16` (two's complement wrap). -/
def toSInt16 (x : Int) : Int := (x + 32768) % 65536 - 32768

/-- Conversion of an `int` to `UInt16`. -/
def toUInt16 (x : Int) : Nat := (x % 65536).toNat

/-! ## The resource fork -/

/-- Resource type `'LPic'`. -/
def kLPic : Nat := 0x4C506963
/-- Resource type `'RTF '`. -/
def kRTF : Nat := 0x52544620
/-- Resource type `'STR#'`. -/
def kSTRn : Nat := 0x53545223

/-- A resource: its name and its data. -/
structure Resource where
  name : List Byte
  data : List Byte
deriving DecidableEq

/-- The resource fork: at most one resource per `(type, id)`. -/
abbrev Container := Nat → Int → Option Resource

/-- The fork with no resource at all. -/
def emptyFork : Container := fun _ _ => none

def Get1Resource (c : Container) (t : Nat) (id : Int) : Option Resource := c t id

def RemoveResource (c : Container) (t : Nat) (id : Int) : Container :=
  fun t' id' => if t' = t ∧ id' = id then none else c t' id'

def AddResource (c : Container) (t : Nat) (id : Int) (r : Resource) : Container :=
  fun t' id' => if t' = t ∧ id' = id then some r else c t' id'

/-- `ChangedResource` + `WriteResource` on a handle that is already a resource:
the handle's present bytes become the resource's data, its name stays. -/
def ChangedResource (c : Container) (t : Nat) (id : Int) (h : List Byte) : Container :=
  fun t' id' =>
    if t' = t ∧ id' = id then (c t id).map (fun r => { r with data := h }) else c t' id'

/-- `SetHandleSize`: the handle keeps its first `n` bytes; bytes it grows into are
not initialised and are taken from `grow`. -/
def SetHandleSize (grow : Nat → Byte) (h : List Byte) (n : Nat) : List Byte :=
  h.take n ++ (List.range (n - h.length)).map (fun k => grow (h.length + k))

/-! ## Inputs and outcomes of a run -/

/-- An item of a language's array in the license dictionary. -/
inductive PItem where
  /-- A CFNumber with value `n`. -/
  | number (n : Nat)
  /-- A CFString, given by its UTF-16 code units. -/
  | string (s : List Nat)
  /-- A value of any other type. -/
  | other
deriving DecidableEq

/-- The diagnostics after which `main` returns 1. -/
inductive Diag where
  | notInDictionary
  | not10Items
  | firstNotNumber
  | notAString (i : Nat)
  | cantConvert (i : Nat)
  | over1MB
  | readError
  | forkOpenFailed
deriving DecidableEq

/-- What `lseek` and `read` report of a license file that could be opened: `size`
is the result of `lseek(fd, 0, SEEK_END)`, `got` the bytes `read` delivered
(`actual` is their number; a failed `read` delivers a different number). -/
structure DocFile where
  size : Nat
  got : List Byte
deriving DecidableEq

/-- What the run receives from its collaborators. -/
structure Args where
  /-- `CFDictionaryGetValue(licdict, iso)` when it is an array. -/
  strings : Option (List PItem)
  /-- The region code from `LocaleStringToLangAndRegionCodes`. -/
  region : Int
  /-- The ISO code, used as the name of the resources written. -/
  isoch : List Byte
  /-- The license file; `none` when `open` fails. -/
  doc : Option DocFile
  /-- Whether the resource fork of the image can be opened. -/
  forkOpens : Bool
  /-- Contents of memory a growing handle extends into. -/
  grow : Nat → Byte

/-- How a run ends. -/
inductive Outcome where
  /-- A diagnostic and `return 1`; every such exit precedes the first access to the
  resource fork. -/
  | fail (d : Diag)
  /-- The run reached `return result` with the fork in state `fork`, having written
  the license at resource id `resid`. -/
  | done (fork : Container) (resid : Int)
  /-- The run read past the end of the LPic handle. -/
  | outOfBounds

/-- Exit status of a run that ends. -/
def Outcome.status : Outcome → Option Nat
  | .fail _ => some 1
  | .done _ _ => some 0
  | .outOfBounds => none

/-- The resource id a run that reached its end wrote at. -/
def Outcome.resid : Outcome → Option Int
  | .done _ s => some s
  | _ => none

/-- The fork after a run that started on `c`. -/
def Outcome.forkAfter (c : Container) : Outcome → Option Container
  | .fail _ => some c
  | .done c' _ => some c'
  | .outOfBounds => none

/-! ## The STR# resource (lines 123-148) -/

def kTextEncodingMacRoman : Nat := 0

/-- `CFStringGetPascalString(s, p, 256, encoding)`: the length byte and the converted
bytes, or failure when `s` has no image in `encoding` or the image is longer than
255 bytes.  `conv` is the system's text converter. -/
def getPascalString (conv : Nat → List Nat → Option (List Byte)) (s : List Nat)
    (encoding : Nat) : Option (List Byte) :=
  match conv encoding s with
  | some bs => if bs.length ≤ 255 then some (byteOf bs.length :: bs) else none
  | none => none

/-- The loop `for (i=1;i<=j;i++)` over the items after the first; `i` is the index
of the head of the list. -/
def pstrLoop (conv : Nat → List Nat → Option (List Byte)) (encoding : Nat) :
    List PItem → Nat → Except Diag (List Byte)
  | [], _ => .ok []
  | .string s :: rest, i =>
    match getPascalString conv s encoding with
    | some p =>
      match pstrLoop conv encoding rest (i + 1) with
      | .ok ps => .ok (p ++ ps)
      | .error d => .error d
    | none => .error (.cantConvert i)
  | _ :: _, i => .error (.notAString i)

/-- The STR# handle after `SetHandleSize(strsh, p-(UInt8*)strs)`, with the count
in the big-endian form in which the system stores it. -/
def buildSTRn (conv : Nat → List Nat → Option (List Byte)) (encoding : Nat)
    (strings : List PItem) : Except Diag (List Byte) :=
  match pstrLoop conv encoding strings.tail 1 with
  | .ok ps => .ok (be16 (strings.length - 1) ++ ps)
  | .error d => .error d

/-! ## The RTF handle (lines 150-167) -/

/-- The RTF handle: `none` is the `NULL` that `rtfb` keeps when `open` fails. -/
def loadRTF : Option DocFile → Except Diag (Option (List Byte))
  | none => .ok none
  | some f =>
    if f.size > 1024 * 1024 then .error .over1MB
    else if f.got.length ≠ f.size then .error .readError
    else .ok (some f.got)

/-! ## The LPic resource (lines 198-233) -/

/-- Result of the search loop over the existing LPic. -/
inductive Scan where
  /-- An item for the region was found; `goto doit` with this `resid`. -/
  | found (resid : Int)
  /-- The loop ran to its end with this `resid`. -/
  | fresh (resid : Int)
  /-- An item read lay outside the handle. -/
  | outOfBounds
deriving DecidableEq

/-- The loop `for (i=0;i<j;i++)` of lines 205-214: `n` iterations remain, `i` is the
index of the next item, `resid` the running value. -/
def scanLPic (h : List Byte) (region : Int) : Nat → Nat → Int → Scan
  | 0, _, resid => .fresh resid
  | n + 1, i, resid =>
    match rd16 h (4 + 6 * i + 2), rd16 h (4 + 6 * i) with
    | some r, some l =>
      let rid := toSInt16 ((r : Int) + 5000)
      if l = toUInt16 region then .found rid
      else scanLPic h region n (i + 1) (if resid ≤ rid then toSInt16 (rid + 1) else resid)
    | _, _ => .outOfBounds

/-- Lines 228-230: the three fields of `item[j]`. -/
def storeItem (h : List Byte) (j : Nat) (region resid : Int) (encoding : Nat) : List Byte :=
  let h1 := wr16 h (4 + 6 * j) (toUInt16 region)
  let h2 := wr16 h1 (4 + 6 * j + 2) (toUInt16 (resid - 5000))
  wr16 h2 (4 + 6 * j + 4) (if encoding > 0 then 1 else 0)

/-- Lines 216-218 and 228-230, the insertion into an existing LPic handle `data` with
`j` items: `SetHandleSize`, the new count, the new item. -/
def grownLPic (grow : Nat → Byte) (data : List Byte) (j : Nat) (region resid : Int)
    (encoding : Nat) : List Byte :=
  storeItem (wr16 (SetHandleSize grow data (2 * 2 + (j + 1) * 3 * 2)) 2 (j + 1)) j region resid
    encoding

/-- Lines 198-233: the fork and `resid` on arrival at `doit`, or `none` when the run
read outside the LPic handle. -/
def updateLPic (c : Container) (region : Int) (encoding : Nat) (grow : Nat → Byte) :
    Option (Container × Int) :=
  match Get1Resource c kLPic 5000 with
  | some lpic =>
    match rd16 lpic.data 2 with
    | none => none
    | some j =>
      match scanLPic lpic.data region j 0 5000 with
      | .outOfBounds => none
      | .found resid => some (c, resid)
      | .fresh resid =>
        some (ChangedResource c kLPic 5000 (grownLPic grow lpic.data j region resid encoding),
          resid)
  | none =>
    let h : List Byte := List.replicate 10 0
    let c := AddResource c kLPic 5000 ⟨[], h⟩
    let h := wr16 h 2 1
    some (ChangedResource c kLPic 5000 (storeItem h 0 region 5000 encoding), 5000)

/-! ## Writing the license (lines 234-253) -/

/-- `Get1Resource` followed by `RemoveResource` when something was found. -/
def removeOld (c : Container) (t : Nat) (id : Int) : Container :=
  match Get1Resource c t id with
  | some _ => RemoveResource c t id
  | none => c

/-- `AddResource` of a handle that may be `NULL`: the Resource Manager adds nothing
for a `NULL` handle. -/
def addHandle (c : Container) (t : Nat) (id : Int) (name : List Byte) :
    Option (List Byte) → Container
  | some h => AddResource c t id ⟨name, h⟩
  | none => c

/-- The code after the label `doit`. -/
def doit (c : Container) (resid : Int) (isoch : List Byte) (rtfb : Option (List Byte))
    (strsh : List Byte) : Container :=
  let c := removeOld c kRTF resid
  let c := addHandle c kRTF resid isoch rtfb
  let c := removeOld c kSTRn resid
  addHandle c kSTRn resid isoch (some strsh)

/-! ## The run -/

/-- Lines 113-196: the dictionary checks, the STR# handle, the RTF handle and the
opening of the resource fork.  The result is the pair `(strsh, rtfb)`. -/
def prepare (conv : Nat → List Nat → Option (List Byte)) (a : Args) :
    Except Diag (List Byte × Option (List Byte)) :=
  match a.strings with
  | none => .error .notInDictionary
  | some strings =>
    if strings.length ≠ 10 then .error .not10Items
    else
      let encoding := kTextEncodingMacRoman
      match strings.head? with
      | some (.number _) =>
        match buildSTRn conv encoding strings with
        | .error d => .error d
        | .ok strsh =>
          match loadRTF a.doc with
          | .error d => .error d
          | .ok rtfb =>
            if a.forkOpens = false then .error .forkOpenFailed
            else .ok (strsh, rtfb)
      | _ => .error .firstNotNumber

/-- The run `main` from line 113 on, for the arguments `a` and the fork `c`.  The
variable `encoding` still has its initial value `kTextEncodingMacRoman` at
line 230. -/
def main (conv : Nat → List Nat → Option (List Byte)) (a : Args) (c : Container) : Outcome :=
  match prepare conv a with
  | .error d => .fail d
  | .ok (strsh, rtfb) =>
    match updateLPic c a.region kTextEncodingMacRoman a.grow with
    | none => .outOfBounds
    | some (c1, resid) => .done (doit c1 resid a.isoch rtfb strsh) resid

/-- One run per element of the list, each on the fork the previous one left; the
result is the last fork and the resource ids the runs wrote at, when every run
reached its end. -/
def runAll (conv : Nat → List Nat → Option (List Byte)) :
    List Args → Container → Option (Container × List Int)
  | [], c => some (c, [])
  | a :: rest, c =>
    match main conv a c with
    | .done c1 resid =>
      match runAll conv rest c1 with
      | some (c2, ids) => some (c2, resid :: ids)
      | none => none
    | _ => none

/-! ## Reading the two record layouts back -/

/-- One `item` of `struct LPic`. -/
structure Item where
  lang : Nat
  resid : Nat
  twobyte : Nat
deriving DecidableEq

/-- The fields of `item[i]` of an LPic handle (`struct LPic`, 68K alignment: the
items start at byte 4 and take 6 bytes each). -/
def readItem (h : List Byte) (i : Nat) : Option Item :=
  match rd16 h (4 + 6 * i), rd16 h (4 + 6 * i + 2), rd16 h (4 + 6 * i + 4) with
  | some l, some r, some t => some ⟨l, r, t⟩
  | _, _, _ => none

/-- The `n` items from index `i` on. -/
def readItemsFrom (h : List Byte) : Nat → Nat → Option (List Item)
  | 0, _ => some []
  | n + 1, i =>
    match readItem h i, readItemsFrom h n (i + 1) with
    | some it, some rest => some (it :: rest)
    | _, _ => none

/-- The items of an LPic handle: as many as its `count` field says, when all of them
lie inside the handle. -/
def readItems (h : List Byte) : Option (List Item) :=
  match rd16 h 2 with
  | some j => readItemsFrom h j 0
  | none => none

/-- The update of `resid` that one iteration of the search loop makes for an item
that does not match. -/
def bump (resid : Int) (it : Item) : Int :=
  if resid ≤ toSInt16 ((it.resid : Int) + 5000) then
    toSInt16 (toSInt16 ((it.resid : Int) + 5000) + 1)
  else resid

/-- Decoder written from the layout of a string list: `n` strings, each one length
byte followed by that many bytes.  The result is the strings and the bytes left. -/
def decodePStrings : Nat → List Byte → Option (List (List Byte) × List Byte)
  | 0, bs => some ([], bs)
  | _ + 1, [] => none
  | n + 1, len :: bs =>
    if len.val ≤ bs.length then
      match decodePStrings n (bs.drop len.val) with
      | some (ss, rest) => some (bs.take len.val :: ss, rest)
      | none => none
    else none

/-- Decoder written from the layout of an STR# record: a big-endian 16-bit count,
then that many length-prefixed strings.  The result is the count, the strings and the
bytes left over. -/
def decodeSTRn (bs : List Byte) : Option (Nat × List (List Byte) × List Byte) :=
  match rd16 bs 0 with
  | some n =>
    match decodePStrings n (bs.drop 2) with
    | some (ss, rest) => some (n, ss, rest)
    | none => none
  | none => none

/-- The bytes of a list of Pascal strings: each a length byte and its bytes. -/
def pstrBytes : List (List Byte) → List Byte
  | [] => []
  | e :: es => (byteOf e.length :: e) ++ pstrBytes es

/-- The index that successive insertions of the regions `rs` build when the first
of them gets slot offset `k`: item `i` has the `i`-th region and offset `k + i`. -/
def slotItems : Nat → List Int → List Item
  | _, [] => []
  | k, r :: rs => ⟨toUInt16 r, k, 0⟩ :: slotItems (k + 1) rs

/-- The fork holds the index built by inserting the regions `regs` in order: no LPic
when there are none yet, otherwise an LPic with exactly those items. -/
def IndexIs (c : Container) (regs : List Int) : Prop :=
  match c kLPic 5000 with
  | none => regs = []
  | some lpic => readItems lpic.data = some (slotItems 0 regs)

/-! ## Sample inputs -/

/-- A text converter that keeps the low byte of every code unit, in any encoding. -/
def sampleConv : Nat → List Nat → Option (List Byte) := fun _ s => some (s.map byteOf)

/-- A text converter whose output starts with the number of the encoding used. -/
def tagConv : Nat → List Nat → Option (List Byte) :=
  fun e s => some (byteOf e :: s.map byteOf)

/-- Nine short strings. -/
def sampleTexts : List (List Nat) := [[79, 75], [78, 111], [65], [66], [67], [68], [69], [70], []]

/-- A dictionary array: the encoding number `e` and the nine sample strings. -/
def sampleStrings (e : Nat) : List PItem := .number e :: sampleTexts.map PItem.string

/-- The arguments of a run for `region` whose dictionary array carries encoding `e`. -/
def sampleArgs (region : Int) (e : Nat) (doc : Option DocFile) : Args :=
  { strings := some (sampleStrings e), region := region, isoch := [byteOf 101, byteOf 110],
    doc := doc, forkOpens := true, grow := fun _ => 0 }

/-- A license file of three bytes. -/
def docA : DocFile := ⟨3, [1, 2, 3]⟩

/-- A license file of two bytes. -/
def docB : DocFile := ⟨2, [9, 8]⟩

/-- The fork a run leaves, or the fork it started on when it did not reach its end. -/
def forkOf (o : Outcome) (c : Container) : Container := (o.forkAfter c).getD c

/-- The empty fork after a run for region 0 with `docA`. -/
def fork1 : Container := forkOf (main sampleConv (sampleArgs 0 0 (some docA)) emptyFork) emptyFork

/-- The fork `fork1` after a run for region 1 with `docB`. -/
def fork2 : Container := forkOf (main sampleConv (sampleArgs 1 0 (some docB)) fork1) fork1

/-- The LPic resource of `fork2`: defLang 0, count 2, items (0, 0, 0) and (1, 1, 0). -/
def lpic2 : Resource := ⟨[], [0, 0, 0, 2, 0, 0, 0, 0, 0, 0, 0, 1, 0, 1, 0, 0]⟩

/-- The STR# record of the sample strings under `sampleConv`. -/
def sampleSTRn : List Byte := be16 9 ++ pstrBytes (sampleTexts.map (fun s => s.map byteOf))

/-- The fork `fork2` after a run for region 5 with `docA`. -/
def fork3 : Container := forkOf (main sampleConv (sampleArgs 5 0 (some docA)) fork2) fork2

/-- A fork whose only resource is an LPic 5000 with the given bytes. -/
def forkWithLPic (bytes : List Nat) : Container :=
  AddResource emptyFork kLPic 5000 ⟨[], bytes.map byteOf⟩

/-- A fork whose index holds region 0 at offset 27768 and region 1 at offset 27767, with
the RTF resource of region 0 at its slot id, `toSInt16 (27768 + 5000) = -32768`. -/
def forkWrap : Container :=
  AddResource (forkWithLPic [0, 0, 0, 2, 0, 0, 0x6C, 0x78, 0, 0, 0, 1, 0x6C, 0x77, 0, 0]) kRTF
    (-32768) ⟨[byteOf 102, byteOf 114], [7, 7]⟩

/-- A fork whose index gives regions 0 and 1 the same offset 0, with an RTF resource at
id 5000. -/
def forkShared : Container :=
  AddResource (forkWithLPic [0, 0, 0, 2, 0, 0, 0, 0, 0, 0, 0, 1, 0, 0, 0, 0]) kRTF 5000
    ⟨[byteOf 102, byteOf 114], [7, 7]⟩

/-! ## Reads after writes -/

theorem byteOf_val (n : Nat) : (byteOf n).val = n % 256 := rfl

theorem length_wr16 (h : List Byte) (k v : Nat) : (wr16 h k v).length = h.length := by
  simp [wr16]

theorem getElem?_wr16 (h : List Byte) (k v m : Nat) :
    (wr16 h k v)[m]? =
      if m = k then (h[m]?).map (fun _ => byteOf (v / 256))
      else if m = k + 1 then (h[m]?).map (fun _ => byteOf v) else h[m]? := by
  unfold wr16
  rw [List.getElem?_set, List.getElem?_set, List.length_set]
  by_cases h1 : m = k
  · subst h1
    by_cases h2 : m < h.length
    · simp [h2, List.getElem?_eq_getElem h2]
    · have : h[m]? = none := List.getElem?_eq_none (by omega)
      simp [h2, this]
  · by_cases h2 : m = k + 1
    · subst h2
      by_cases h3 : k + 1 < h.length
      · simp [h3, List.getElem?_eq_getElem h3]
      · have : h[k + 1]? = none := List.getElem?_eq_none (by omega)
        simp [h3, this]
    · have e1 : ¬ k + 1 = m := fun e => h2 e.symm
      have e2 : ¬ k = m := fun e => h1 e.symm
      simp [h1, h2, e1, e2]

theorem getElem?_wr16_other (h : List Byte) (k v m : Nat) (h1 : m ≠ k) (h2 : m ≠ k + 1) :
    (wr16 h k v)[m]? = h[m]? := by
  rw [getElem?_wr16, if_neg h1, if_neg h2]

theorem rd16_congr {h h' : List Byte} {k : Nat} (e0 : h[k]? = h'[k]?)
    (e1 : h[k + 1]? = h'[k + 1]?) : rd16 h k = rd16 h' k := by
  unfold rd16
  rw [e0, e1]

theorem rd16_some_bound {h : List Byte} {k v : Nat} (e : rd16 h k = some v) :
    v < 65536 ∧ k + 1 < h.length := by
  unfold rd16 at e
  split at e
  · rename_i a b ha hb
    have hb' := (List.getElem?_eq_some.mp hb).1
    have h1 := a.isLt
    have h2 := b.isLt
    simp only [Option.some.injEq] at e
    omega
  · exact absurd e (by simp)

theorem rd16_of_lt {h : List Byte} {k : Nat} (hk : k + 1 < h.length) :
    ∃ v, rd16 h k = some v := by
  have h0 : k < h.length := by omega
  unfold rd16
  rw [List.getElem?_eq_getElem h0, List.getElem?_eq_getElem hk]
  exact ⟨_, rfl⟩

theorem rd16_wr16_same (h : List Byte) (k v : Nat) (hk : k + 1 < h.length) :
    rd16 (wr16 h k v) k = some (v % 65536) := by
  have h0 : k < h.length := by omega
  unfold rd16
  rw [getElem?_wr16, getElem?_wr16, if_pos rfl, if_neg (by omega), if_pos rfl,
    List.getElem?_eq_getElem h0, List.getElem?_eq_getElem hk]
  simp only [Option.map_some', byteOf_val, Option.some.injEq]
  omega

theorem rd16_wr16_other (h : List Byte) (k v m : Nat) (hm : m + 1 < k ∨ k + 1 < m) :
    rd16 (wr16 h k v) m = rd16 h m := by
  apply rd16_congr
  · exact getElem?_wr16_other h k v m (by omega) (by omega)
  · exact getElem?_wr16_other h k v (m + 1) (by omega) (by omega)

theorem length_SetHandleSize (grow : Nat → Byte) (h : List Byte) (n : Nat) :
    (SetHandleSize grow h n).length = n := by
  simp only [SetHandleSize, List.length_append, List.length_take, List.length_map,
    List.length_range]
  omega

theorem getElem?_SetHandleSize (grow : Nat → Byte) (h : List Byte) (n m : Nat)
    (h1 : m < n) (h2 : m < h.length) : (SetHandleSize grow h n)[m]? = h[m]? := by
  unfold SetHandleSize
  rw [List.getElem?_append_left (by simp only [List.length_take]; omega),
    List.getElem?_take_of_lt h1]

theorem rd16_drop (h : List Byte) (k m : Nat) : rd16 (h.drop k) m = rd16 h (k + m) := by
  unfold rd16
  rw [List.getElem?_drop, List.getElem?_drop]
  rfl

/-! ## Items of an LPic handle -/

theorem readItem_eq_some {h : List Byte} {i : Nat} {it : Item} :
    readItem h i = some it ↔
      rd16 h (4 + 6 * i) = some it.lang ∧ rd16 h (4 + 6 * i + 2) = some it.resid ∧
        rd16 h (4 + 6 * i + 4) = some it.twobyte := by
  unfold readItem
  cases it with
  | mk l r t =>
    cases h0 : rd16 h (4 + 6 * i) <;> cases h1 : rd16 h (4 + 6 * i + 2) <;>
      cases h2 : rd16 h (4 + 6 * i + 4) <;> simp

theorem readItem_congr {h h' : List Byte} {i : Nat}
    (e : ∀ m, 4 + 6 * i ≤ m → m < 4 + 6 * i + 6 → h'[m]? = h[m]?) :
    readItem h' i = readItem h i := by
  unfold readItem
  rw [rd16_congr (e _ (by omega) (by omega)) (e _ (by omega) (by omega)),
    rd16_congr (e (4 + 6 * i + 2) (by omega) (by omega)) (e _ (by omega) (by omega)),
    rd16_congr (e (4 + 6 * i + 4) (by omega) (by omega)) (e _ (by omega) (by omega))]

theorem readItemsFrom_eq_some_iff (h : List Byte) :
    ∀ (n i : Nat) (items : List Item),
      readItemsFrom h n i = some items ↔
        items.length = n ∧ ∀ k, k < n → readItem h (i + k) = items[k]? := by
  intro n
  induction n with
  | zero =>
    intro i items
    simp only [readItemsFrom, Option.some.injEq]
    constructor
    · intro e
      subst e
      exact ⟨rfl, fun k hk => absurd hk (by omega)⟩
    · intro e
      exact (List.length_eq_zero.mp e.1).symm
  | succ n ih =>
    intro i items
    constructor
    · intro e
      unfold readItemsFrom at e
      split at e
      · rename_i it rest hit hrest
        simp only [Option.some.injEq] at e
        subst e
        obtain ⟨hl, hk⟩ := (ih (i + 1) rest).mp hrest
        refine ⟨by simp [hl], ?_⟩
        intro k hk'
        cases k with
        | zero => simpa using hit
        | succ k =>
          have := hk k (by omega)
          rw [show i + (k + 1) = i + 1 + k by omega, this]
          simp
      · exact absurd e (by simp)
    · rintro ⟨hl, hk⟩
      cases items with
      | nil => simp at hl
      | cons it rest =>
        have h0 : readItem h i = some it := by simpa using hk 0 (by omega)
        have hr : readItemsFrom h n (i + 1) = some rest := by
          apply (ih (i + 1) rest).mpr
          refine ⟨by simpa using hl, ?_⟩
          intro k hk'
          have := hk (k + 1) (by omega)
          rw [show i + 1 + k = i + (k + 1) by omega, this]
          simp
        unfold readItemsFrom
        rw [h0, hr]

theorem readItems_eq_some_iff (h : List Byte) (items : List Item) :
    readItems h = some items ↔
      rd16 h 2 = some items.length ∧ ∀ k, k < items.length → readItem h k = items[k]? := by
  unfold readItems
  cases hj : rd16 h 2 with
  | none => simp
  | some j =>
    simp only [readItemsFrom_eq_some_iff, Nat.zero_add, Option.some.injEq]
    constructor
    · rintro ⟨hl, hk⟩
      subst hl
      exact ⟨rfl, hk⟩
    · rintro ⟨hl, hk⟩
      subst hl
      exact ⟨rfl, hk⟩

/-- The items read lie inside the handle. -/
theorem readItems_length_le {h : List Byte} {items : List Item}
    (e : readItems h = some items) : 4 + 6 * items.length ≤ h.length := by
  obtain ⟨hc, hk⟩ := (readItems_eq_some_iff h items).mp e
  have hb := (rd16_some_bound hc).2
  rcases Nat.eq_zero_or_pos items.length with h0 | h0
  · omega
  · have hlast := hk (items.length - 1) (by omega)
    rw [List.getElem?_eq_getElem (by omega)] at hlast
    have := (rd16_some_bound (readItem_eq_some.mp hlast).2.2).2
    omega

/-- The search loop on a handle whose items are all readable and none of which
matches: it ends with the running value folded over the items. -/
theorem scanLPic_fresh (h : List Byte) (region : Int) :
    ∀ (n i : Nat) (resid : Int) (items : List Item),
      readItemsFrom h n i = some items → (∀ it ∈ items, it.lang ≠ toUInt16 region) →
        scanLPic h region n i resid = .fresh (items.foldl bump resid) := by
  intro n
  induction n with
  | zero =>
    intro i resid items e _
    simp only [readItemsFrom, Option.some.injEq] at e
    subst e
    rfl
  | succ n ih =>
    intro i resid items e hne
    unfold readItemsFrom at e
    split at e
    · rename_i it rest hit hrest
      simp only [Option.some.injEq] at e
      subst e
      obtain ⟨hl, hr, _⟩ := readItem_eq_some.mp hit
      have hne0 : it.lang ≠ toUInt16 region := hne it (by simp)
      unfold scanLPic
      simp only [hr, hl, hne0, if_false, List.foldl_cons]
      rw [ih (i + 1) _ rest hrest (fun x hx => hne x (by simp [hx]))]
      rfl
    · exact absurd e (by simp)


/-- The search loop finds the first item whose language is the region, provided
that item lies inside the handle. -/
theorem scanLPic_found (h : List Byte) (region : Int) (i off : Nat)
    (hl : rd16 h (4 + 6 * i) = some (toUInt16 region))
    (hr : rd16 h (4 + 6 * i + 2) = some off)
    (hfirst : ∀ k, k < i → rd16 h (4 + 6 * k) ≠ some (toUInt16 region)) :
    ∀ (n k : Nat) (resid : Int), k ≤ i → i < k + n →
      scanLPic h region n k resid = .found (toSInt16 ((off : Int) + 5000)) := by
  intro n
  induction n with
  | zero => intro k resid h1 h2; omega
  | succ n ih =>
    intro k resid h1 h2
    rcases Nat.eq_or_lt_of_le h1 with e | hlt
    · subst e
      unfold scanLPic
      simp only [hr, hl, if_true]
    · have hb := (rd16_some_bound hr).2
      obtain ⟨r, hr'⟩ := rd16_of_lt (h := h) (k := 4 + 6 * k + 2) (by omega)
      obtain ⟨l, hl'⟩ := rd16_of_lt (h := h) (k := 4 + 6 * k) (by omega)
      have hne : l ≠ toUInt16 region := by
        intro e
        exact hfirst k hlt (by rw [hl', e])
      unfold scanLPic
      simp only [hr', hl', hne, if_false]
      exact ih (k + 1) _ (by omega) (by omega)

/-! ## The LPic handle after an insertion -/

theorem length_grownLPic (grow : Nat → Byte) (data : List Byte) (j : Nat) (region resid : Int)
    (encoding : Nat) : (grownLPic grow data j region resid encoding).length = 4 + 6 * (j + 1) := by
  simp only [grownLPic, storeItem, length_wr16, length_SetHandleSize]
  omega

theorem getElem?_grownLPic (grow : Nat → Byte) (data : List Byte) (j : Nat) (region resid : Int)
    (encoding : Nat) (m : Nat) (h1 : m < 4 + 6 * j) (h2 : m < data.length) (h3 : m ≠ 2)
    (h4 : m ≠ 3) : (grownLPic grow data j region resid encoding)[m]? = data[m]? := by
  simp only [grownLPic, storeItem]
  rw [getElem?_wr16_other _ _ _ _ (by omega) (by omega),
    getElem?_wr16_other _ _ _ _ (by omega) (by omega),
    getElem?_wr16_other _ _ _ _ (by omega) (by omega),
    getElem?_wr16_other _ _ _ _ (by omega) (by omega),
    getElem?_SetHandleSize _ _ _ _ (by omega) h2]

theorem count_grownLPic (grow : Nat → Byte) (data : List Byte) (j : Nat) (region resid : Int)
    (encoding : Nat) :
    rd16 (grownLPic grow data j region resid encoding) 2 = some ((j + 1) % 65536) := by
  simp only [grownLPic, storeItem]
  rw [rd16_wr16_other _ _ _ _ (by omega), rd16_wr16_other _ _ _ _ (by omega),
    rd16_wr16_other _ _ _ _ (by omega),
    rd16_wr16_same _ _ _ (by rw [length_SetHandleSize]; omega)]

theorem toUInt16_lt (x : Int) : toUInt16 x < 65536 := by
  unfold toUInt16
  omega

theorem getElem?_wr16_hi (h : List Byte) (k v : Nat) (hk : k < h.length) :
    (wr16 h k v)[k]? = some (byteOf (v / 256)) := by
  rw [getElem?_wr16, if_pos rfl, List.getElem?_eq_getElem hk]
  rfl

theorem getElem?_wr16_lo (h : List Byte) (k v : Nat) (hk : k + 1 < h.length) :
    (wr16 h k v)[k + 1]? = some (byteOf v) := by
  rw [getElem?_wr16, if_neg (by omega), if_pos rfl, List.getElem?_eq_getElem hk]
  rfl

theorem drop_grownLPic (grow : Nat → Byte) (data : List Byte) (j : Nat) (region resid : Int)
    (encoding : Nat) :
    (grownLPic grow data j region resid encoding).drop (4 + 6 * j) =
      be16 (toUInt16 region) ++ be16 (toUInt16 (resid - 5000)) ++
        be16 (if encoding > 0 then 1 else 0) := by
  unfold grownLPic
  have hlen : (wr16 (SetHandleSize grow data (2 * 2 + (j + 1) * 3 * 2)) 2 (j + 1)).length =
      4 + 6 * j + 6 := by
    rw [length_wr16, length_SetHandleSize]; omega
  generalize wr16 (SetHandleSize grow data (2 * 2 + (j + 1) * 3 * 2)) 2 (j + 1) = X at hlen ⊢
  have e0 : (storeItem X j region resid encoding)[4 + 6 * j]? =
      some (byteOf (toUInt16 region / 256)) := by
    unfold storeItem
    rw [getElem?_wr16_other _ _ _ _ (by omega) (by omega),
      getElem?_wr16_other _ _ _ _ (by omega) (by omega),
      getElem?_wr16_hi _ _ _ (by omega)]
  have e1 : (storeItem X j region resid encoding)[4 + 6 * j + 1]? =
      some (byteOf (toUInt16 region)) := by
    unfold storeItem
    rw [getElem?_wr16_other _ _ _ _ (by omega) (by omega),
      getElem?_wr16_other _ _ _ _ (by omega) (by omega),
      getElem?_wr16_lo _ _ _ (by omega)]
  have e2 : (storeItem X j region resid encoding)[4 + 6 * j + 2]? =
      some (byteOf (toUInt16 (resid - 5000) / 256)) := by
    unfold storeItem
    rw [getElem?_wr16_other _ _ _ _ (by omega) (by omega),
      getElem?_wr16_hi _ _ _ (by rw [length_wr16]; omega)]
  have e3 : (storeItem X j region resid encoding)[4 + 6 * j + 2 + 1]? =
      some (byteOf (toUInt16 (resid - 5000))) := by
    unfold storeItem
    rw [getElem?_wr16_other _ _ _ _ (by omega) (by omega),
      getElem?_wr16_lo _ _ _ (by rw [length_wr16]; omega)]
  have e4 : (storeItem X j region resid encoding)[4 + 6 * j + 4]? =
      some (byteOf ((if encoding > 0 then 1 else 0) / 256)) := by
    unfold storeItem
    rw [getElem?_wr16_hi _ _ _ (by rw [length_wr16, length_wr16]; omega)]
  have e5 : (storeItem X j region resid encoding)[4 + 6 * j + 4 + 1]? =
      some (byteOf (if encoding > 0 then 1 else 0)) := by
    unfold storeItem
    rw [getElem?_wr16_lo _ _ _ (by rw [length_wr16, length_wr16]; omega)]
  have hl : (storeItem X j region resid encoding).length = 4 + 6 * j + 6 := by
    simp only [storeItem, length_wr16, hlen]
  apply List.ext_getElem?
  intro m
  rw [List.getElem?_drop]
  by_cases hm : m < 6
  · interval_cases m
    · exact e0
    · exact e1
    · exact e2
    · exact e3
    · exact e4
    · exact e5
  · rw [List.getElem?_eq_none (by omega)]
    symm
    exact List.getElem?_eq_none (by simp [be16]; omega)

/-! ## The fork after the writes -/

theorem kLPic_ne_kRTF : kLPic ≠ kRTF := by decide
theorem kLPic_ne_kSTRn : kLPic ≠ kSTRn := by decide
theorem kRTF_ne_kSTRn : kRTF ≠ kSTRn := by decide

theorem removeOld_apply (c : Container) (t : Nat) (id : Int) (t' : Nat) (id' : Int) :
    removeOld c t id t' id' = if t' = t ∧ id' = id then none else c t' id' := by
  unfold removeOld Get1Resource
  cases h : c t id with
  | none =>
    by_cases e : t' = t ∧ id' = id
    · rw [if_pos e, e.1, e.2]
      exact h
    · rw [if_neg e]
  | some r => rfl

theorem doit_other (c : Container) (resid : Int) (isoch : List Byte)
    (rtfb : Option (List Byte)) (strsh : List Byte) (t : Nat) (id : Int)
    (h1 : ¬ (t = kRTF ∧ id = resid)) (h2 : ¬ (t = kSTRn ∧ id = resid)) :
    doit c resid isoch rtfb strsh t id = c t id := by
  cases rtfb <;>
    simp only [doit, addHandle, AddResource, removeOld_apply, h1, h2, if_false]

theorem doit_rtf (c : Container) (resid : Int) (isoch : List Byte)
    (d : List Byte) (strsh : List Byte) :
    doit c resid isoch (some d) strsh kRTF resid = some ⟨isoch, d⟩ := by
  have := kRTF_ne_kSTRn
  simp only [doit, addHandle, AddResource, removeOld_apply, this, false_and, if_false, true_and,
    and_self, if_true]

theorem doit_strn (c : Container) (resid : Int) (isoch : List Byte)
    (rtfb : Option (List Byte)) (strsh : List Byte) :
    doit c resid isoch rtfb strsh kSTRn resid = some ⟨isoch, strsh⟩ := by
  simp only [doit, addHandle, AddResource, and_self, if_true]

theorem doit_lpic (c : Container) (resid : Int) (isoch : List Byte)
    (rtfb : Option (List Byte)) (strsh : List Byte) (id : Int) :
    doit c resid isoch rtfb strsh kLPic id = c kLPic id :=
  doit_other c resid isoch rtfb strsh kLPic id (fun h => kLPic_ne_kRTF h.1)
    (fun h => kLPic_ne_kSTRn h.1)

theorem updateLPic_other (c c1 : Container) (region : Int) (encoding : Nat) (grow : Nat → Byte)
    (resid : Int) (e : updateLPic c region encoding grow = some (c1, resid)) (t : Nat) (id : Int)
    (h : ¬ (t = kLPic ∧ id = 5000)) : c1 t id = c t id := by
  unfold updateLPic Get1Resource at e
  split at e
  · split at e
    · exact absurd e (by simp)
    · split at e
      · exact absurd e (by simp)
      · simp only [Option.some.injEq, Prod.mk.injEq] at e
        rw [← e.1]
      · simp only [Option.some.injEq, Prod.mk.injEq] at e
        rw [← e.1]
        simp only [ChangedResource, h, if_false]
  · simp only [Option.some.injEq, Prod.mk.injEq] at e
    rw [← e.1]
    simp only [ChangedResource, AddResource, h, if_false]

theorem main_of_prepare (conv : Nat → List Nat → Option (List Byte)) (a : Args) (c : Container)
    (strsh : List Byte) (rtfb : Option (List Byte)) (hp : prepare conv a = .ok (strsh, rtfb))
    (c1 : Container) (resid : Int)
    (hu : updateLPic c a.region kTextEncodingMacRoman a.grow = some (c1, resid)) :
    main conv a c = .done (doit c1 resid a.isoch rtfb strsh) resid := by
  unfold main
  rw [hp]
  simp only [hu]

theorem main_done_inv (conv : Nat → List Nat → Option (List Byte)) (a : Args) (c c' : Container)
    (s : Int) (e : main conv a c = .done c' s) :
    ∃ strsh rtfb c1, prepare conv a = .ok (strsh, rtfb) ∧
      updateLPic c a.region kTextEncodingMacRoman a.grow = some (c1, s) ∧
      c' = doit c1 s a.isoch rtfb strsh := by
  unfold main at e
  split at e
  · exact absurd e (by simp)
  · rename_i strsh rtfb hp
    split at e
    · exact absurd e (by simp)
    · rename_i c1 resid hu
      simp only [Outcome.done.injEq] at e
      obtain ⟨e1, e2⟩ := e
      subst e2
      exact ⟨strsh, rtfb, c1, hp, hu, e1.symm⟩

/-! ## The STR# record -/

theorem length_pstrBytes (es : List (List Byte)) :
    (pstrBytes es).length = (es.map (fun e => 1 + e.length)).sum := by
  induction es with
  | nil => rfl
  | cons e es ih =>
    simp only [pstrBytes, List.length_append, List.length_cons, ih, List.map_cons, List.sum_cons]
    omega

theorem pstrLoop_ok (conv : Nat → List Nat → Option (List Byte)) (encoding : Nat) :
    ∀ (ss : List (List Nat)) (i : Nat),
      (∀ s ∈ ss, ∃ e, conv encoding s = some e ∧ e.length ≤ 255) →
        pstrLoop conv encoding (ss.map PItem.string) i =
          .ok (pstrBytes (ss.map (fun s => (conv encoding s).getD []))) := by
  intro ss
  induction ss with
  | nil => intro i _; rfl
  | cons s ss ih =>
    intro i h
    obtain ⟨e, he, hle⟩ := h s (by simp)
    have hrest := ih (i + 1) (fun x hx => h x (by simp [hx]))
    simp only [List.map_cons, pstrLoop, getPascalString, he, hle, if_true, hrest, pstrBytes,
      Option.getD_some]

theorem decodePStrings_pstrBytes :
    ∀ (es : List (List Byte)) (rest : List Byte), (∀ e ∈ es, e.length ≤ 255) →
      decodePStrings es.length (pstrBytes es ++ rest) = some (es, rest) := by
  intro es
  induction es with
  | nil => intro rest _; rfl
  | cons e es ih =>
    intro rest h
    have hle : e.length ≤ 255 := h e (by simp)
    have hv : (byteOf e.length).val = e.length := by
      rw [byteOf_val]; omega
    have hrest := ih rest (fun x hx => h x (by simp [hx]))
    have hshape : pstrBytes (e :: es) ++ rest =
        byteOf e.length :: (e ++ (pstrBytes es ++ rest)) := by
      simp [pstrBytes]
    rw [hshape, List.length_cons, decodePStrings, hv,
      if_pos (by rw [List.length_append]; omega), List.drop_left, hrest, List.take_left]

theorem rd16_be16_append (v : Nat) (rest : List Byte) :
    rd16 (be16 v ++ rest) 0 = some (v % 65536) := by
  simp only [rd16, be16, List.cons_append, List.nil_append, List.getElem?_cons_zero,
    List.getElem?_cons_succ, byteOf_val, Option.some.injEq]
  omega

/-! ## The three ways through lines 198-233 -/

theorem updateLPic_found (c : Container) (lpic : Resource) (region : Int) (encoding : Nat)
    (grow : Nat → Byte) (j i off : Nat) (hc : c kLPic 5000 = some lpic)
    (hj : rd16 lpic.data 2 = some j) (hi : i < j)
    (hl : rd16 lpic.data (4 + 6 * i) = some (toUInt16 region))
    (hr : rd16 lpic.data (4 + 6 * i + 2) = some off)
    (hfirst : ∀ k, k < i → rd16 lpic.data (4 + 6 * k) ≠ some (toUInt16 region)) :
    updateLPic c region encoding grow = some (c, toSInt16 ((off : Int) + 5000)) := by
  have hs := scanLPic_found lpic.data region i off hl hr hfirst j 0 5000 (by omega) (by omega)
  simp only [updateLPic, Get1Resource, hc, hj, hs]

theorem updateLPic_append (c : Container) (lpic : Resource) (region : Int) (encoding : Nat)
    (grow : Nat → Byte) (items : List Item) (hc : c kLPic 5000 = some lpic)
    (hi : readItems lpic.data = some items)
    (hnew : ∀ it ∈ items, it.lang ≠ toUInt16 region) :
    updateLPic c region encoding grow =
      some (ChangedResource c kLPic 5000
        (grownLPic grow lpic.data items.length region (items.foldl bump 5000) encoding),
        items.foldl bump 5000) := by
  have hj := ((readItems_eq_some_iff _ _).mp hi).1
  have hfrom : readItemsFrom lpic.data items.length 0 = some items := by
    unfold readItems at hi
    rw [hj] at hi
    exact hi
  have hs := scanLPic_fresh lpic.data region items.length 0 5000 items hfrom hnew
  simp only [updateLPic, Get1Resource, hc, hj, hs]

theorem updateLPic_create (c : Container) (region : Int) (encoding : Nat) (grow : Nat → Byte)
    (hc : c kLPic 5000 = none) :
    ∃ c1, updateLPic c region encoding grow = some (c1, 5000) ∧
      c1 kLPic 5000 =
        some ⟨[], storeItem (wr16 (List.replicate 10 0) 2 1) 0 region 5000 encoding⟩ := by
  refine ⟨ChangedResource (AddResource c kLPic 5000 ⟨[], List.replicate 10 0⟩) kLPic 5000
    (storeItem (wr16 (List.replicate 10 0) 2 1) 0 region 5000 encoding), ?_, ?_⟩
  · simp only [updateLPic, Get1Resource, hc]
  · simp only [ChangedResource, AddResource, and_self, if_true, Option.map_some']

theorem ChangedResource_self (c : Container) (lpic : Resource) (h : List Byte)
    (hc : c kLPic 5000 = some lpic) :
    ChangedResource c kLPic 5000 h kLPic 5000 = some ⟨lpic.name, h⟩ := by
  simp only [ChangedResource, and_self, if_true, hc, Option.map_some']

theorem readItemsFrom_of_length (h : List Byte) :
    ∀ (n i : Nat), 4 + 6 * (i + n) ≤ h.length →
      ∃ items, readItemsFrom h n i = some items := by
  intro n
  induction n with
  | zero => intro i _; exact ⟨[], rfl⟩
  | succ n ih =>
    intro i hlen
    obtain ⟨rest, hrest⟩ := ih (i + 1) (by omega)
    obtain ⟨l, hl⟩ := rd16_of_lt (h := h) (k := 4 + 6 * i) (by omega)
    obtain ⟨r, hr⟩ := rd16_of_lt (h := h) (k := 4 + 6 * i + 2) (by omega)
    obtain ⟨t, ht⟩ := rd16_of_lt (h := h) (k := 4 + 6 * i + 4) (by omega)
    have hit : readItem h i = some ⟨l, r, t⟩ := readItem_eq_some.mpr ⟨hl, hr, ht⟩
    exact ⟨⟨l, r, t⟩ :: rest, by simp only [readItemsFrom, hit, hrest]⟩

theorem readItems_of_length (h : List Byte) (j : Nat) (hj : rd16 h 2 = some j)
    (hlen : 4 + 6 * j ≤ h.length) : ∃ items, readItems h = some items ∧ items.length = j := by
  obtain ⟨items, hi⟩ := readItemsFrom_of_length h j 0 (by omega)
  refine ⟨items, by simp only [readItems, hj, hi], ?_⟩
  exact ((readItemsFrom_eq_some_iff h j 0 items).mp hi).1

theorem mem_readItems {h : List Byte} {items : List Item} (e : readItems h = some items)
    {it : Item} (hit : it ∈ items) : ∃ k, k < items.length ∧ readItem h k = some it := by
  obtain ⟨k, hk, rfl⟩ := List.getElem_of_mem hit
  refine ⟨k, hk, ?_⟩
  rw [((readItems_eq_some_iff h items).mp e).2 k hk, List.getElem?_eq_getElem hk]

theorem rd16_three (a b c : Nat) (ha : a < 65536) (hb : b < 65536) (hc : c < 65536) :
    rd16 (be16 a ++ be16 b ++ be16 c) 0 = some a ∧
      rd16 (be16 a ++ be16 b ++ be16 c) 2 = some b ∧
      rd16 (be16 a ++ be16 b ++ be16 c) 4 = some c := by
  simp only [rd16, be16, List.cons_append, List.nil_append, List.getElem?_cons_zero,
    List.getElem?_cons_succ, byteOf_val, Option.some.injEq]
  omega

theorem readItem_grownLPic_old (grow : Nat → Byte) (data : List Byte) (j : Nat)
    (region resid : Int) (encoding : Nat) (k : Nat) (hk : k < j)
    (hlen : 4 + 6 * j ≤ data.length) :
    readItem (grownLPic grow data j region resid encoding) k = readItem data k := by
  apply readItem_congr
  intro m h1 h2
  exact getElem?_grownLPic grow data j region resid encoding m (by omega) (by omega) (by omega)
    (by omega)

/-- The items of the grown handle are the old items followed by the new one, as long
as the count still fits sixteen bits. -/
theorem readItems_grownLPic (grow : Nat → Byte) (data : List Byte) (items : List Item)
    (region resid : Int) (encoding : Nat) (hi : readItems data = some items)
    (hlt : items.length < 65535) :
    readItems (grownLPic grow data items.length region resid encoding) =
      some (items ++ [⟨toUInt16 region, toUInt16 (resid - 5000),
        if encoding > 0 then 1 else 0⟩]) := by
  have hlen := readItems_length_le hi
  obtain ⟨_, hk⟩ := (readItems_eq_some_iff _ _).mp hi
  apply (readItems_eq_some_iff _ _).mpr
  constructor
  · rw [count_grownLPic, List.length_append, List.length_singleton,
      Nat.mod_eq_of_lt (by omega)]
  · intro k hk'
    rw [List.length_append, List.length_singleton] at hk'
    rcases Nat.lt_or_ge k items.length with hlt' | hge
    · rw [List.getElem?_append_left hlt', ← hk k hlt']
      exact readItem_grownLPic_old grow data items.length region resid encoding k hlt' hlen
    · have hke : k = items.length := by omega
      subst hke
      rw [List.getElem?_append_right (Nat.le_refl _), Nat.sub_self]
      apply readItem_eq_some.mpr
      have hd := drop_grownLPic grow data items.length region resid encoding
      have e0 : ∀ m, rd16 (grownLPic grow data items.length region resid encoding)
          (4 + 6 * items.length + m) =
          rd16 (be16 (toUInt16 region) ++ be16 (toUInt16 (resid - 5000)) ++
            be16 (if encoding > 0 then 1 else 0)) m := by
        intro m
        rw [← hd, rd16_drop]
      have hR := toUInt16_lt region
      have hO := toUInt16_lt (resid - 5000)
      obtain ⟨r0, r2, r4⟩ := rd16_three (toUInt16 region) (toUInt16 (resid - 5000))
        (if encoding > 0 then 1 else 0) hR hO (by split <;> omega)
      refine ⟨?_, ?_, ?_⟩
      · rw [show 4 + 6 * items.length = 4 + 6 * items.length + 0 by rfl, e0, r0]
        rfl
      · rw [e0, r2]
        rfl
      · rw [e0, r4]
        rfl

/-! ## The running value of `resid` -/

theorem toSInt16_of_range (x : Int) (h1 : -32768 ≤ x) (h2 : x ≤ 32767) : toSInt16 x = x := by
  unfold toSInt16
  omega

theorem toSInt16_range (x : Int) : -32768 ≤ toSInt16 x ∧ toSInt16 x ≤ 32767 := by
  unfold toSInt16
  omega

theorem bump_noWrap (m : Nat) (it : Item) (hr : it.resid ≤ 27766) :
    bump (5000 + (m : Int)) it = 5000 + ((max m (it.resid + 1) : Nat) : Int) := by
  unfold bump
  rw [toSInt16_of_range _ (by omega) (by omega)]
  rcases Nat.le_total m (it.resid + 1) with h | h
  · rw [Nat.max_eq_right h]
    by_cases hle : (5000 : Int) + m ≤ it.resid + 5000
    · rw [if_pos hle, toSInt16_of_range _ (by omega) (by omega)]
      push_cast
      omega
    · rw [if_neg hle]
      push_cast
      omega
  · rw [Nat.max_eq_left h]
    by_cases hle : (5000 : Int) + m ≤ it.resid + 5000
    · rw [if_pos hle, toSInt16_of_range _ (by omega) (by omega)]
      omega
    · rw [if_neg hle]

theorem foldl_max_bounds (l : List Nat) :
    ∀ (m : Nat), m ≤ l.foldl max m ∧ (∀ x ∈ l, x ≤ l.foldl max m) ∧
      ∀ b, m ≤ b → (∀ x ∈ l, x ≤ b) → l.foldl max m ≤ b := by
  induction l with
  | nil =>
    intro m
    exact ⟨Nat.le_refl _, fun x hx => absurd hx (by simp), fun b hb _ => hb⟩
  | cons a l ih =>
    intro m
    obtain ⟨h1, h2, h3⟩ := ih (max m a)
    simp only [List.foldl_cons]
    refine ⟨by omega, ?_, ?_⟩
    · intro x hx
      rcases List.mem_cons.mp hx with e | hx'
      · subst e; omega
      · exact h2 x hx'
    · intro b hb hall
      apply h3 b
      · have := hall a (by simp)
        omega
      · intro x hx
        exact hall x (by simp [hx])

theorem foldl_bump_noWrap :
    ∀ (items : List Item) (m : Nat), (∀ it ∈ items, it.resid ≤ 27766) →
      items.foldl bump (5000 + (m : Int)) =
        5000 + (((items.map (fun it => it.resid + 1)).foldl max m : Nat) : Int) := by
  intro items
  induction items with
  | nil => intro m _; rfl
  | cons it items ih =>
    intro m hall
    have hr := hall it (by simp)
    simp only [List.foldl_cons, List.map_cons]
    rw [bump_noWrap m it hr]
    exact ih _ (fun x hx => hall x (by simp [hx]))


theorem prepare_eq_ok (conv : Nat → List Nat → Option (List Byte)) (a : Args)
    (strsh : List Byte) (rtfb : Option (List Byte)) (hp : prepare conv a = .ok (strsh, rtfb)) :
    ∃ strings n, a.strings = some strings ∧ strings.length = 10 ∧
      strings.head? = some (PItem.number n) ∧
      buildSTRn conv kTextEncodingMacRoman strings = .ok strsh ∧ loadRTF a.doc = .ok rtfb ∧
      a.forkOpens = true := by
  unfold prepare at hp
  cases hs : a.strings with
  | none => simp [hs] at hp
  | some strings =>
    simp only [hs] at hp
    by_cases hl : strings.length = 10
    · simp only [hl, ne_eq, not_true_eq_false, if_false] at hp
      cases hh : strings.head? with
      | none => simp [hh] at hp
      | some it =>
        cases it with
        | number n =>
          simp only [hh] at hp
          cases hb : buildSTRn conv kTextEncodingMacRoman strings with
          | error d => simp [hb] at hp
          | ok s1 =>
            simp only [hb] at hp
            cases hd : loadRTF a.doc with
            | error d => simp [hd] at hp
            | ok r1 =>
              simp only [hd] at hp
              cases hf : a.forkOpens with
              | false => simp [hf] at hp
              | true =>
                simp only [hf, Bool.true_eq_false, if_false, Except.ok.injEq,
                  Prod.mk.injEq] at hp
                exact ⟨strings, n, rfl, hl, hh, by rw [hb, hp.1], by rw [hp.2], rfl⟩
        | string s => simp [hh] at hp
        | other => simp [hh] at hp
    · simp [hl] at hp

theorem prepare_doc (conv : Nat → List Nat → Option (List Byte)) (a : Args) (strsh : List Byte)
    (rtfb : Option (List Byte)) (hp : prepare conv a = .ok (strsh, rtfb)) (f : DocFile)
    (hf : a.doc = some f) : rtfb = some f.got := by
  obtain ⟨_, _, _, _, _, _, hd, _⟩ := prepare_eq_ok conv a strsh rtfb hp
  rw [hf] at hd
  simp only [loadRTF] at hd
  split at hd
  · exact absurd hd (by simp)
  · split at hd
    · exact absurd hd (by simp)
    · simp only [Except.ok.injEq] at hd
      exact hd.symm

theorem bump_bounds (r0 : Int) (it : Item) (h1 : 5000 ≤ r0) (h2 : r0 ≤ 32767)
    (hlt : it.resid < 65536) (hne : it.resid ≠ 27767) :
    r0 ≤ bump r0 it ∧ bump r0 it ≤ 32767 ∧
      toSInt16 ((it.resid : Int) + 5000) < bump r0 it := by
  unfold bump
  have hr := toSInt16_range ((it.resid : Int) + 5000)
  have hne' : toSInt16 ((it.resid : Int) + 5000) ≠ 32767 := by
    unfold toSInt16
    omega
  by_cases hle : r0 ≤ toSInt16 ((it.resid : Int) + 5000)
  · rw [if_pos hle, toSInt16_of_range _ (by omega) (by omega)]
    omega
  · rw [if_neg hle]
    omega

theorem foldl_bump_bounds :
    ∀ (items : List Item) (r0 : Int), 5000 ≤ r0 → r0 ≤ 32767 →
      (∀ it ∈ items, it.resid < 65536 ∧ it.resid ≠ 27767) →
      r0 ≤ items.foldl bump r0 ∧ items.foldl bump r0 ≤ 32767 ∧
        ∀ it ∈ items, toSInt16 ((it.resid : Int) + 5000) < items.foldl bump r0 := by
  intro items
  induction items with
  | nil =>
    intro r0 _ h2 _
    exact ⟨Int.le_refl _, h2, fun it hit => absurd hit (by simp)⟩
  | cons it items ih =>
    intro r0 h1 h2 hall
    obtain ⟨hlt, hne⟩ := hall it (by simp)
    obtain ⟨b1, b2, b3⟩ := bump_bounds r0 it h1 h2 hlt hne
    obtain ⟨i1, i2, i3⟩ := ih (bump r0 it) (by omega) b2 (fun x hx => hall x (by simp [hx]))
    simp only [List.foldl_cons]
    refine ⟨by omega, i2, ?_⟩
    intro x hx
    rcases List.mem_cons.mp hx with e | hx'
    · subst e; omega
    · exact i3 x hx'

theorem scanLPic_fresh_inv (h : List Byte) (region : Int) :
    ∀ (n i : Nat) (resid r : Int) (items : List Item),
      readItemsFrom h n i = some items → scanLPic h region n i resid = .fresh r →
        ∀ it ∈ items, it.lang ≠ toUInt16 region := by
  intro n
  induction n with
  | zero =>
    intro i resid r items e _
    simp only [readItemsFrom, Option.some.injEq] at e
    subst e
    intro it hit
    exact absurd hit (by simp)
  | succ n ih =>
    intro i resid r items e hs
    unfold readItemsFrom at e
    split at e
    · rename_i it rest hit hrest
      simp only [Option.some.injEq] at e
      subst e
      obtain ⟨hl, hr, _⟩ := readItem_eq_some.mp hit
      unfold scanLPic at hs
      simp only [hr, hl] at hs
      by_cases hm : it.lang = toUInt16 region
      · rw [if_pos hm] at hs
        exact absurd hs (by simp)
      · rw [if_neg hm] at hs
        intro x hx
        rcases List.mem_cons.mp hx with e | hx'
        · subst e; exact hm
        · exact ih (i + 1) _ r rest hrest hs x hx'
    · exact absurd e (by simp)

/-- On a fork whose LPic has readable items, lines 198-233 either leave the fork alone
or append an item for a region no item had. -/
theorem updateLPic_cases (c c1 : Container) (lpic : Resource) (region : Int) (encoding : Nat)
    (grow : Nat → Byte) (items : List Item) (s : Int) (hc : c kLPic 5000 = some lpic)
    (hi : readItems lpic.data = some items)
    (hu : updateLPic c region encoding grow = some (c1, s)) :
    c1 = c ∨ ((∀ it ∈ items, it.lang ≠ toUInt16 region) ∧ s = items.foldl bump 5000 ∧
      c1 = ChangedResource c kLPic 5000
        (grownLPic grow lpic.data items.length region (items.foldl bump 5000) encoding)) := by
  have hj := ((readItems_eq_some_iff _ _).mp hi).1
  have hfrom : readItemsFrom lpic.data items.length 0 = some items := by
    unfold readItems at hi
    rw [hj] at hi
    exact hi
  cases hs : scanLPic lpic.data region items.length 0 5000 with
  | found r =>
    left
    simp only [updateLPic, Get1Resource, hc, hj, hs, Option.some.injEq, Prod.mk.injEq] at hu
    exact hu.1.symm
  | outOfBounds =>
    simp [updateLPic, Get1Resource, hc, hj, hs] at hu
  | fresh r =>
    right
    have hnew := scanLPic_fresh_inv lpic.data region items.length 0 5000 r items hfrom hs
    have hu' := updateLPic_append c lpic region encoding grow items hc hi hnew
    rw [hu] at hu'
    simp only [Option.some.injEq, Prod.mk.injEq] at hu'
    exact ⟨hnew, hu'.2, hu'.1⟩

theorem readItems_bound {h : List Byte} {items : List Item} (e : readItems h = some items)
    {it : Item} (hit : it ∈ items) : it.lang < 65536 ∧ it.resid < 65536 := by
  obtain ⟨k, _, hk⟩ := mem_readItems e hit
  obtain ⟨h1, h2, _⟩ := readItem_eq_some.mp hk
  exact ⟨(rd16_some_bound h1).1, (rd16_some_bound h2).1⟩

/-! ## Successive insertions -/

theorem length_slotItems : ∀ (rs : List Int) (k : Nat), (slotItems k rs).length = rs.length := by
  intro rs
  induction rs with
  | nil => intro k; rfl
  | cons r rs ih => intro k; simp only [slotItems, List.length_cons, ih]

theorem slotItems_append : ∀ (rs : List Int) (k : Nat) (r : Int),
    slotItems k (rs ++ [r]) = slotItems k rs ++ [⟨toUInt16 r, k + rs.length, 0⟩] := by
  intro rs
  induction rs with
  | nil => intro k r; rfl
  | cons x rs ih =>
    intro k r
    show slotItems k (x :: (rs ++ [r])) = _
    rw [slotItems, slotItems, ih (k + 1) r, List.length_cons,
      show k + 1 + rs.length = k + (rs.length + 1) by omega]
    rfl

theorem mem_slotItems : ∀ (rs : List Int) (k : Nat) (it : Item), it ∈ slotItems k rs →
    it.lang ∈ rs.map toUInt16 ∧ k ≤ it.resid ∧ it.resid < k + rs.length := by
  intro rs
  induction rs with
  | nil => intro k it h; exact absurd h (by simp [slotItems])
  | cons r rs ih =>
    intro k it h
    simp only [slotItems, List.mem_cons] at h
    rcases h with e | h
    · subst e
      simp only [List.map_cons, List.mem_cons, true_or, List.length_cons, true_and]
      omega
    · obtain ⟨h1, h2, h3⟩ := ih (k + 1) it h
      simp only [List.map_cons, List.mem_cons, List.length_cons]
      exact ⟨Or.inr h1, by omega, by omega⟩

theorem getElem?_slotItems : ∀ (rs : List Int) (k i : Nat) (h : i < rs.length),
    (slotItems k rs)[i]? = some ⟨toUInt16 rs[i], k + i, 0⟩ := by
  intro rs
  induction rs with
  | nil => intro k i h; exact absurd h (by simp)
  | cons r rs ih =>
    intro k i h
    cases i with
    | zero => simp [slotItems]
    | succ i =>
      simp only [slotItems, List.getElem?_cons_succ, List.getElem_cons_succ]
      rw [ih (k + 1) i (by simpa using h), show k + 1 + i = k + (i + 1) by omega]

theorem foldl_max_slotItems : ∀ (rs : List Int) (k : Nat),
    ((slotItems k rs).map (fun it => it.resid + 1)).foldl max k = k + rs.length := by
  intro rs
  induction rs with
  | nil => intro k; rfl
  | cons r rs ih =>
    intro k
    simp only [slotItems, List.map_cons, List.foldl_cons, List.length_cons]
    rw [show max k (k + 1) = k + 1 by omega, ih (k + 1)]
    omega

theorem readItems_fresh (region : Int) (encoding : Nat) :
    readItems (storeItem (wr16 (List.replicate 10 0) 2 1) 0 region 5000 encoding) =
      some [⟨toUInt16 region, 0, if encoding > 0 then 1 else 0⟩] := by
  have h0 : readItems (List.replicate 4 (0 : Byte)) = some [] := by decide
  have h := readItems_grownLPic (fun _ => 0) (List.replicate 4 0) [] region 5000 encoding h0
    (by simp)
  exact h

/-- One run on a fork whose index was built from `regs`, for a region not among them. -/
theorem main_slot_step (conv : Nat → List Nat → Option (List Byte)) (a : Args) (c : Container)
    (regs : List Int) (hidx : IndexIs c regs) (hlen : regs.length ≤ 27767)
    (hnew : toUInt16 a.region ∉ regs.map toUInt16)
    (hp : ∃ strsh rtfb, prepare conv a = .ok (strsh, rtfb)) :
    ∃ c1, main conv a c = .done c1 (5000 + (regs.length : Int)) ∧
      IndexIs c1 (regs ++ [a.region]) := by
  obtain ⟨strsh, rtfb, hp⟩ := hp
  unfold IndexIs at hidx
  cases hc : c kLPic 5000 with
  | none =>
    rw [hc] at hidx
    subst hidx
    obtain ⟨c1, hu, hc1⟩ := updateLPic_create c a.region kTextEncodingMacRoman a.grow hc
    refine ⟨_, main_of_prepare conv a c strsh rtfb hp _ _ hu, ?_⟩
    unfold IndexIs
    rw [doit_lpic, hc1]
    exact readItems_fresh a.region kTextEncodingMacRoman
  | some lpic =>
    rw [hc] at hidx
    simp only at hidx
    have hnew' : ∀ it ∈ slotItems 0 regs, it.lang ≠ toUInt16 a.region := by
      intro it hit e
      exact hnew (e ▸ (mem_slotItems regs 0 it hit).1)
    have hoff : ∀ it ∈ slotItems 0 regs, it.resid ≤ 27766 := by
      intro it hit
      have := (mem_slotItems regs 0 it hit).2.2
      omega
    have hu := updateLPic_append c lpic a.region kTextEncodingMacRoman a.grow _ hc hidx hnew'
    have hfold := foldl_bump_noWrap (slotItems 0 regs) 0 hoff
    rw [foldl_max_slotItems regs 0] at hfold
    simp only [Nat.cast_zero, add_zero, Nat.zero_add] at hfold
    rw [hfold, length_slotItems] at hu
    refine ⟨_, main_of_prepare conv a c strsh rtfb hp _ _ hu, ?_⟩
    unfold IndexIs
    rw [doit_lpic, ChangedResource_self c lpic _ hc]
    simp only
    have hg := readItems_grownLPic a.grow lpic.data (slotItems 0 regs) a.region
      (5000 + (regs.length : Int)) kTextEncodingMacRoman hidx
      (by rw [length_slotItems]; omega)
    rw [length_slotItems] at hg
    rw [hg, slotItems_append]
    have : toUInt16 (5000 + (regs.length : Int) - 5000) = 0 + regs.length := by
      unfold toUInt16
      omega
    rw [this]
    rfl

theorem runAll_slots (conv : Nat → List Nat → Option (List Byte)) :
    ∀ (runs : List Args) (c : Container) (regs : List Int), IndexIs c regs →
      regs.length + runs.length ≤ 27768 →
      (∀ a ∈ runs, ∃ strsh rtfb, prepare conv a = .ok (strsh, rtfb)) →
      ((regs ++ runs.map (fun (a : Args) => a.region)).map toUInt16).Nodup →
      ∃ c', runAll conv runs c =
          some (c', (List.range runs.length).map
            (fun (i : Nat) => 5000 + (regs.length : Int) + (i : Int))) ∧
        IndexIs c' (regs ++ runs.map (fun (a : Args) => a.region)) := by
  intro runs
  induction runs with
  | nil =>
    intro c regs hidx _ _ _
    exact ⟨c, rfl, by simpa using hidx⟩
  | cons a rest ih =>
    intro c regs hidx hlen hprep hnd
    simp only [List.length_cons] at hlen
    have hnew : toUInt16 a.region ∉ regs.map toUInt16 := by
      simp only [List.map_cons, List.map_append, List.nodup_append] at hnd
      intro hmem
      exact hnd.2.2 hmem (by simp)
    obtain ⟨c1, hmain, hidx1⟩ := main_slot_step conv a c regs hidx (by omega) hnew
      (hprep a (by simp))
    have hnd1 :
        (((regs ++ [a.region]) ++ rest.map (fun (a : Args) => a.region)).map toUInt16).Nodup := by
      simpa using hnd
    obtain ⟨c2, hrun, hidx2⟩ := ih c1 (regs ++ [a.region]) hidx1
      (by simp only [List.length_append, List.length_singleton]; omega)
      (fun x hx => hprep x (by simp [hx])) hnd1
    refine ⟨c2, ?_, by simpa using hidx2⟩
    simp only [runAll, hmain, hrun, List.length_cons, List.range_succ_eq_map, List.map_cons,
      List.map_map, Nat.cast_zero, add_zero, Option.some.injEq, Prod.mk.injEq, true_and,
      List.cons.injEq, List.length_append, List.length_singleton, List.length_nil]
    apply List.map_congr_left
    intro i _
    simp only [Function.comp, Nat.cast_add, Nat.cast_one, Nat.cast_succ]
    omega

/-- Resources other than LPic at ids that no run of the sequence resolved are as
they were. -/
theorem runAll_frame (conv : Nat → List Nat → Option (List Byte)) :
    ∀ (runs : List Args) (c c' : Container) (ids : List Int),
      runAll conv runs c = some (c', ids) →
      ∀ (t : Nat) (id : Int), t ≠ kLPic → id ∉ ids → c' t id = c t id := by
  intro runs
  induction runs with
  | nil =>
    intro c c' ids h t id _ _
    simp only [runAll, Option.some.injEq, Prod.mk.injEq] at h
    rw [← h.1]
  | cons a rest ih =>
    intro c c' ids h t id ht hid
    unfold runAll at h
    split at h
    · rename_i c1 s hmain
      split at h
      · rename_i c2 ids2 hrest
        simp only [Option.some.injEq, Prod.mk.injEq] at h
        obtain ⟨h1, h2⟩ := h
        subst h1 h2
        simp only [List.mem_cons, not_or] at hid
        rw [ih c1 c2 ids2 hrest t id ht hid.2]
        obtain ⟨strsh, rtfb, c0, _, hu, hc1⟩ := main_done_inv conv a c c1 s hmain
        rw [hc1, doit_other _ _ _ _ _ _ _ (fun e => hid.1 e.2) (fun e => hid.1 e.2)]
        exact updateLPic_other c c0 a.region _ a.grow s hu t id (fun e => ht e.1)
      · exact absurd h (by simp)
    · exact absurd h (by simp)

/-- After a sequence of runs that resolved pairwise distinct ids, each id holds the
STR# and RTF resources of its run. -/
theorem runAll_records (conv : Nat → List Nat → Option (List Byte)) :
    ∀ (runs : List Args) (c c' : Container) (ids : List Int),
      runAll conv runs c = some (c', ids) → ids.Nodup →
      ∀ (i : Nat) (hi : i < runs.length) (hi' : i < ids.length),
        ∃ strsh rtfb, prepare conv runs[i] = .ok (strsh, rtfb) ∧
          c' kSTRn ids[i] = some ⟨runs[i].isoch, strsh⟩ ∧
          c' kRTF ids[i] = rtfb.map (fun d => ⟨runs[i].isoch, d⟩) := by
  intro runs
  induction runs with
  | nil => intro c c' ids _ _ i hi; exact absurd hi (by simp)
  | cons a rest ih =>
    intro c c' ids h hnd i hi hi'
    unfold runAll at h
    split at h
    · rename_i c1 s hmain
      split at h
      · rename_i c2 ids2 hrest
        simp only [Option.some.injEq, Prod.mk.injEq] at h
        obtain ⟨h1, h2⟩ := h
        subst h1 h2
        rw [List.nodup_cons] at hnd
        cases i with
        | zero =>
          obtain ⟨strsh, rtfb, c0, hp, _, hc1⟩ := main_done_inv conv a c c1 s hmain
          refine ⟨strsh, rtfb, hp, ?_, ?_⟩
          · simp only [List.getElem_cons_zero]
            rw [runAll_frame conv rest c1 c2 ids2 hrest kSTRn s (Ne.symm kLPic_ne_kSTRn) hnd.1,
              hc1, doit_strn]
          · simp only [List.getElem_cons_zero]
            rw [runAll_frame conv rest c1 c2 ids2 hrest kRTF s (Ne.symm kLPic_ne_kRTF) hnd.1,
              hc1]
            cases rtfb with
            | some d => rw [doit_rtf]; rfl
            | none =>
              have hne := kRTF_ne_kSTRn
              simp only [doit, addHandle, AddResource, removeOld_apply, hne, false_and,
                if_false, and_self, if_true, Option.map_none']
        | succ i =>
          simp only [List.getElem_cons_succ]
          exact ih c1 c2 ids2 hrest hnd.2 i (by simpa using hi) (by simpa using hi')
      · exact absurd h (by simp)
    · exact absurd h (by simp)

theorem toUInt16_injOn (x y : Int) (hx : -32768 ≤ x ∧ x ≤ 32767)
    (hy : -32768 ≤ y ∧ y ≤ 32767)
    (e : toUInt16 x = toUInt16 y) : x = y := by
  unfold toUInt16 at e
  omega

/-! ## What the search loop returns -/

theorem scanLPic_found_inv (h : List Byte) (region : Int) :
    ∀ (n i : Nat) (resid r : Int) (items : List Item),
      readItemsFrom h n i = some items → scanLPic h region n i resid = .found r →
        ∃ it ∈ items, it.lang = toUInt16 region ∧ r = toSInt16 ((it.resid : Int) + 5000) := by
  intro n
  induction n with
  | zero =>
    intro i resid r items _ hs
    simp [scanLPic] at hs
  | succ n ih =>
    intro i resid r items e hs
    unfold readItemsFrom at e
    split at e
    · rename_i it rest hit hrest
      simp only [Option.some.injEq] at e
      subst e
      obtain ⟨hl, hr, _⟩ := readItem_eq_some.mp hit
      unfold scanLPic at hs
      simp only [hr, hl] at hs
      by_cases hm : it.lang = toUInt16 region
      · rw [if_pos hm] at hs
        simp only [Scan.found.injEq] at hs
        exact ⟨it, by simp, hm, hs.symm⟩
      · rw [if_neg hm] at hs
        obtain ⟨x, hx, h1, h2⟩ := ih (i + 1) _ r rest hrest hs
        exact ⟨x, by simp [hx], h1, h2⟩
    · exact absurd e (by simp)

/-- The resource id that lines 198-233 resolve on a fork whose LPic has readable
items: the slot of an item for the region, or the running value folded over all items
when no item is for the region. -/
theorem updateLPic_resid (c c1 : Container) (lpic : Resource) (region : Int) (encoding : Nat)
    (grow : Nat → Byte) (items : List Item) (s : Int) (hc : c kLPic 5000 = some lpic)
    (hi : readItems lpic.data = some items)
    (hu : updateLPic c region encoding grow = some (c1, s)) :
    (∃ it ∈ items, it.lang = toUInt16 region ∧ s = toSInt16 ((it.resid : Int) + 5000)) ∨
      ((∀ it ∈ items, it.lang ≠ toUInt16 region) ∧ s = items.foldl bump 5000) := by
  have hj := ((readItems_eq_some_iff _ _).mp hi).1
  have hfrom : readItemsFrom lpic.data items.length 0 = some items := by
    unfold readItems at hi
    rw [hj] at hi
    exact hi
  cases hs : scanLPic lpic.data region items.length 0 5000 with
  | found r =>
    left
    simp only [updateLPic, Get1Resource, hc, hj, hs, Option.some.injEq, Prod.mk.injEq] at hu
    obtain ⟨it, hit, h1, h2⟩ := scanLPic_found_inv lpic.data region items.length 0 5000 r items
      hfrom hs
    exact ⟨it, hit, h1, by rw [← hu.2, h2]⟩
  | outOfBounds =>
    simp [updateLPic, Get1Resource, hc, hj, hs] at hu
  | fresh r =>
    right
    have hnew := scanLPic_fresh_inv lpic.data region items.length 0 5000 r items hfrom hs
    have hu' := updateLPic_append c lpic region encoding grow items hc hi hnew
    rw [hu] at hu'
    simp only [Option.some.injEq, Prod.mk.injEq] at hu'
    exact ⟨hnew, hu'.2⟩

theorem toSInt16_inj_of_lt (x y : Nat) (hx : x < 65536) (hy : y < 65536)
    (e : toSInt16 ((x : Int) + 5000) = toSInt16 ((y : Int) + 5000)) : x = y := by
  unfold toSInt16 at e
  omega

/-! ## The claims -/

/-- C1 (slot reuse on re-add, amended): when the first item of the index whose language
is the region lies inside the record and stores the offset `off`, a run for that region
with a readable document leaves the LPic resource exactly as it was, resolves the
resource id to `5000 + off` wrapped to a signed 16-bit id (which is `5000 + off` whenever
`off ≤ 27767`), and leaves at that id an RTF resource holding the document bytes and an
STR# resource holding the new string list. -/
theorem slot_reuse (conv : Nat → List Nat → Option (List Byte)) (a : Args) (c : Container)
    (lpic : Resource) (j i off : Nat) (strsh : List Byte) (rtfb : Option (List Byte))
    (f : DocFile) (hc : c kLPic 5000 = some lpic) (hj : rd16 lpic.data 2 = some j) (hi : i < j)
    (hl : rd16 lpic.data (4 + 6 * i) = some (toUInt16 a.region))
    (hr : rd16 lpic.data (4 + 6 * i + 2) = some off)
    (hfirst : ∀ k, k < i → rd16 lpic.data (4 + 6 * k) ≠ some (toUInt16 a.region))
    (hp : prepare conv a = .ok (strsh, rtfb)) (hf : a.doc = some f) :
    ∃ c', main conv a c = .done c' (toSInt16 ((off : Int) + 5000)) ∧
      c' kLPic 5000 = some lpic ∧
      c' kRTF (toSInt16 ((off : Int) + 5000)) = some ⟨a.isoch, f.got⟩ ∧
      c' kSTRn (toSInt16 ((off : Int) + 5000)) = some ⟨a.isoch, strsh⟩ ∧
      (off ≤ 27767 → toSInt16 ((off : Int) + 5000) = 5000 + (off : Int)) := by
  have hu := updateLPic_found c lpic a.region kTextEncodingMacRoman a.grow j i off hc hj hi hl hr
    hfirst
  have hrt := prepare_doc conv a strsh rtfb hp f hf
  subst hrt
  have hmain := main_of_prepare conv a c strsh (some f.got) hp _ _ hu
  refine ⟨_, hmain, ?_, doit_rtf _ _ _ _ _, doit_strn _ _ _ _ _, ?_⟩
  · rw [doit_lpic, hc]
  · intro hle
    rw [toSInt16_of_range _ (by omega) (by omega)]
    omega

/-- C1, counterexample to the claim as stated: the only item of the index is for
region 7 and stores the offset 65535; the run for region 7 resolves the resource id
4999, not 5000 + 65535. -/
theorem slot_reuse_wraps :
    rd16 ([0, 0, 0, 1, 0, 7, 255, 255, 0, 0] : List Byte) 2 = some 1 ∧
      rd16 ([0, 0, 0, 1, 0, 7, 255, 255, 0, 0] : List Byte) 4 = some (toUInt16 7) ∧
      rd16 ([0, 0, 0, 1, 0, 7, 255, 255, 0, 0] : List Byte) 6 = some 65535 ∧
      (main sampleConv (sampleArgs 7 0 (some docA))
        (forkWithLPic [0, 0, 0, 1, 0, 7, 255, 255, 0, 0])).resid = some 4999 ∧
      (main sampleConv (sampleArgs 7 0 (some docA))
        (forkWithLPic [0, 0, 0, 1, 0, 7, 255, 255, 0, 0])).resid ≠ some (5000 + 65535) := by
  decide

/-- C1, the amended claim at a concrete input: region 1 is re-added to `fork2` with
another document; the index stays, the id is 5001, the RTF there holds the new bytes. -/
theorem slot_reuse_witness :
    fork2 kLPic 5000 = some lpic2 ∧ rd16 lpic2.data 2 = some 2 ∧
      rd16 lpic2.data (4 + 6 * 1) = some (toUInt16 1) ∧
      rd16 lpic2.data (4 + 6 * 1 + 2) = some 1 ∧
      ∃ c', main sampleConv (sampleArgs 1 0 (some docA)) fork2 =
          .done c' (toSInt16 (((1 : Nat) : Int) + 5000)) ∧
        c' kLPic 5000 = some lpic2 ∧
        c' kRTF (toSInt16 (((1 : Nat) : Int) + 5000)) =
          some ⟨[byteOf 101, byteOf 110], docA.got⟩ ∧
        c' kSTRn (toSInt16 (((1 : Nat) : Int) + 5000)) =
          some ⟨[byteOf 101, byteOf 110], sampleSTRn⟩ ∧
        (1 ≤ 27767 → toSInt16 (((1 : Nat) : Int) + 5000) = 5000 + ((1 : Nat) : Int)) :=
  ⟨by decide, by decide, by decide, by decide,
    slot_reuse sampleConv (sampleArgs 1 0 (some docA)) fork2 lpic2 2 1 1 sampleSTRn
      (some docA.got) docA (by decide) (by decide) (by decide) (by decide) (by decide)
      (by decide) rfl rfl⟩

/-- C2 (N distinct languages on a fresh image): for `1 ≤ N ≤ 27768` runs with pairwise
distinct region codes, started on a fork with no LPic 5000 and run one after the other,
every run reaches its end, the `i`-th run resolves the resource id `5000 + i`, and the
final index has count `N` and as its `i`-th item the `i`-th region with slot offset `i`
(and flag 0); the STR# and RTF resources of the `i`-th run are at id `5000 + i`. -/
theorem fresh_image_slots (conv : Nat → List Nat → Option (List Byte)) (runs : List Args)
    (c : Container) (hc : c kLPic 5000 = none) (h1 : 1 ≤ runs.length)
    (hN : runs.length ≤ 27768)
    (hrange : ∀ a ∈ runs, -32768 ≤ a.region ∧ a.region ≤ 32767)
    (hdist : (runs.map (fun (a : Args) => a.region)).Nodup)
    (hprep : ∀ a ∈ runs, ∃ strsh rtfb, prepare conv a = .ok (strsh, rtfb)) :
    ∃ c' lpic,
      runAll conv runs c =
        some (c', (List.range runs.length).map (fun (i : Nat) => 5000 + (i : Int))) ∧
      c' kLPic 5000 = some lpic ∧ rd16 lpic.data 2 = some runs.length ∧
      ∀ (i : Nat) (hi : i < runs.length),
        readItem lpic.data i = some ⟨toUInt16 runs[i].region, i, 0⟩ ∧
        ∃ strsh rtfb, prepare conv runs[i] = .ok (strsh, rtfb) ∧
          c' kSTRn (5000 + (i : Int)) = some ⟨runs[i].isoch, strsh⟩ ∧
          c' kRTF (5000 + (i : Int)) = rtfb.map (fun d => ⟨runs[i].isoch, d⟩) := by
  have hidx : IndexIs c [] := by
    unfold IndexIs
    rw [hc]
  have hnd : (([] ++ runs.map (fun (a : Args) => a.region)).map toUInt16).Nodup := by
    rw [List.nil_append]
    apply List.Nodup.map_on _ hdist
    intro x hx y hy e
    obtain ⟨ax, hax, rfl⟩ := List.mem_map.mp hx
    obtain ⟨ay, hay, rfl⟩ := List.mem_map.mp hy
    exact toUInt16_injOn _ _ (hrange ax hax) (hrange ay hay) e
  obtain ⟨c', hrun, hidx'⟩ := runAll_slots conv runs c [] hidx (by simpa using hN) hprep hnd
  simp only [List.length_nil, Nat.cast_zero, add_zero, List.nil_append] at hrun hidx'
  unfold IndexIs at hidx'
  cases hl : c' kLPic 5000 with
  | none =>
    rw [hl] at hidx'
    simp only [List.map_eq_nil_iff] at hidx'
    rw [hidx'] at h1
    exact absurd h1 (by simp)
  | some lpic =>
    rw [hl] at hidx'
    simp only at hidx'
    obtain ⟨hcount, hitems⟩ := (readItems_eq_some_iff _ _).mp hidx'
    rw [length_slotItems, List.length_map] at hcount hitems
    have hids : ((List.range runs.length).map (fun (i : Nat) => 5000 + (i : Int))).Nodup := by
      apply List.Nodup.map _ (List.nodup_range _)
      intro x y e
      simp only at e
      omega
    refine ⟨c', lpic, hrun, hl, hcount, ?_⟩
    intro i hi
    constructor
    · rw [hitems i hi, getElem?_slotItems _ 0 i (by simpa using hi)]
      simp
    · have := runAll_records conv runs c c' _ hrun hids i hi (by simpa using hi)
      simpa using this

/-- C2 at a concrete input: region 0 then region 1 on the empty fork give the ids
5000 and 5001 and an index of count 2 with items (0, 0, 0) and (1, 1, 0). -/
theorem fresh_image_slots_witness :
    emptyFork kLPic 5000 = none ∧
      ([sampleArgs 0 0 (some docA), sampleArgs 1 0 (some docB)].map
        (fun (a : Args) => a.region)).Nodup ∧
      ∃ c' lpic,
        runAll sampleConv [sampleArgs 0 0 (some docA), sampleArgs 1 0 (some docB)] emptyFork =
          some (c', [5000, 5001]) ∧
        c' kLPic 5000 = some lpic ∧ rd16 lpic.data 2 = some 2 ∧
        readItem lpic.data 0 = some ⟨0, 0, 0⟩ ∧
        readItem lpic.data 1 = some ⟨1, 1, 0⟩ := by
  refine ⟨rfl, by decide, ?_⟩
  obtain ⟨c', lpic, hrun, hl, hcount, hitems⟩ :=
    fresh_image_slots sampleConv [sampleArgs 0 0 (some docA), sampleArgs 1 0 (some docB)]
      emptyFork rfl (by decide) (by decide) (by decide) (by decide)
      (fun a ha => by
        simp only [List.mem_cons, List.mem_singleton, List.not_mem_nil, or_false] at ha
        rcases ha with rfl | rfl
        · exact ⟨sampleSTRn, some docA.got, rfl⟩
        · exact ⟨sampleSTRn, some docB.got, rfl⟩)
  exact ⟨c', lpic, hrun, hl, hcount, (hitems 0 (by decide)).1, (hitems 1 (by decide)).1⟩

/-- C3 (frame, amended): a run that reaches its end having resolved the resource id `s`
leaves every resource other than (LPic, 5000), (RTF, s) and (STR#, s) exactly as it was:
same presence, same name, same bytes.  When the items of the existing index have
pairwise distinct slot offsets and, in case no item is for the run's region, none of
them is 27767, the slot id of every item for another region differs from `s`, so the
RTF and STR# resources of every other language are as they were. -/
theorem main_frame (conv : Nat → List Nat → Option (List Byte)) (a : Args) (c c' : Container)
    (s : Int) (e : main conv a c = .done c' s) :
    (∀ (t : Nat) (id : Int), ¬ (t = kLPic ∧ id = 5000) → ¬ (t = kRTF ∧ id = s) →
      ¬ (t = kSTRn ∧ id = s) → c' t id = c t id) ∧
    (∀ (lpic : Resource) (items : List Item), c kLPic 5000 = some lpic →
      readItems lpic.data = some items → (items.map (fun it => it.resid)).Nodup →
      ((∀ it ∈ items, it.lang ≠ toUInt16 a.region) → ∀ it ∈ items, it.resid ≠ 27767) →
      ∀ it ∈ items, it.lang ≠ toUInt16 a.region →
        toSInt16 ((it.resid : Int) + 5000) ≠ s ∧
        c' kRTF (toSInt16 ((it.resid : Int) + 5000)) =
          c kRTF (toSInt16 ((it.resid : Int) + 5000)) ∧
        c' kSTRn (toSInt16 ((it.resid : Int) + 5000)) =
          c kSTRn (toSInt16 ((it.resid : Int) + 5000))) := by
  obtain ⟨strsh, rtfb, c1, _, hu, hc'⟩ := main_done_inv conv a c c' s e
  have hframe : ∀ (t : Nat) (id : Int), ¬ (t = kLPic ∧ id = 5000) → ¬ (t = kRTF ∧ id = s) →
      ¬ (t = kSTRn ∧ id = s) → c' t id = c t id := by
    intro t id h0 h1 h2
    rw [hc', doit_other _ _ _ _ _ _ _ h1 h2]
    exact updateLPic_other c c1 a.region _ a.grow s hu t id h0
  refine ⟨hframe, ?_⟩
  intro lpic items hc hi hres htop it hit hlang
  have hne : toSInt16 ((it.resid : Int) + 5000) ≠ s := by
    rcases updateLPic_resid c c1 lpic a.region _ a.grow items s hc hi hu with
      ⟨it0, hit0, hl0, hs0⟩ | ⟨hnew, hs0⟩
    · intro heq
      rw [hs0] at heq
      have hr := toSInt16_inj_of_lt it.resid it0.resid (readItems_bound hi hit).2
        (readItems_bound hi hit0).2 heq
      have hsame := List.inj_on_of_nodup_map hres hit hit0 hr
      rw [hsame] at hlang
      exact hlang hl0
    · obtain ⟨_, _, b3⟩ := foldl_bump_bounds items 5000 (by omega) (by omega)
        (fun x hx => ⟨(readItems_bound hi hx).2, htop hnew x hx⟩)
      have := b3 it hit
      rw [hs0]
      omega
  exact ⟨hne,
    hframe kRTF _ (fun h => kLPic_ne_kRTF h.1.symm) (fun h => hne h.2)
      (fun h => kRTF_ne_kSTRn h.1),
    hframe kSTRn _ (fun h => kLPic_ne_kSTRn h.1.symm) (fun h => kRTF_ne_kSTRn h.1.symm)
      (fun h => hne h.2)⟩

/-- C3, counterexamples to the claim as stated.  On `forkWrap` (offsets 27768 and 27767,
distinct) the run for the new region 2 resolves the id -32768, the slot of region 0,
and replaces the RTF resource there.  On `forkShared` (regions 0 and 1 both at offset
0) the run for region 1 resolves the id 5000, which is also the slot of region 0, and
replaces the RTF resource there. -/
theorem frame_slot_shared :
    (forkWrap kLPic 5000).map (fun r => readItems r.data) =
        some (some [⟨0, 27768, 0⟩, ⟨1, 27767, 0⟩]) ∧
      toSInt16 (27768 + 5000) = -32768 ∧
      forkWrap kRTF (-32768) = some ⟨[byteOf 102, byteOf 114], [7, 7]⟩ ∧
      (main sampleConv (sampleArgs 2 0 (some docA)) forkWrap).resid = some (-32768) ∧
      forkOf (main sampleConv (sampleArgs 2 0 (some docA)) forkWrap) forkWrap kRTF (-32768) =
        some ⟨[byteOf 101, byteOf 110], [1, 2, 3]⟩ ∧
      (forkShared kLPic 5000).map (fun r => readItems r.data) =
        some (some [⟨0, 0, 0⟩, ⟨1, 0, 0⟩]) ∧
      forkShared kRTF 5000 = some ⟨[byteOf 102, byteOf 114], [7, 7]⟩ ∧
      (main sampleConv (sampleArgs 1 0 (some docA)) forkShared).resid = some 5000 ∧
      forkOf (main sampleConv (sampleArgs 1 0 (some docA)) forkShared) forkShared kRTF 5000 =
        some ⟨[byteOf 101, byteOf 110], [1, 2, 3]⟩ := by
  decide

/-- C3, the amended claim at a concrete input: the run for region 5 on `fork2` resolves
5002 and leaves the RTF and STR# resources of region 0, at id 5000, as they were. -/
theorem main_frame_witness :
    main sampleConv (sampleArgs 5 0 (some docA)) fork2 = .done fork3 5002 ∧
      fork2 kLPic 5000 = some lpic2 ∧ readItems lpic2.data = some [⟨0, 0, 0⟩, ⟨1, 1, 0⟩] ∧
      fork3 kRTF 5001 = fork2 kRTF 5001 ∧
      toSInt16 (((0 : Nat) : Int) + 5000) ≠ 5002 ∧
      fork3 kRTF (toSInt16 (((0 : Nat) : Int) + 5000)) =
        fork2 kRTF (toSInt16 (((0 : Nat) : Int) + 5000)) ∧
      fork3 kSTRn (toSInt16 (((0 : Nat) : Int) + 5000)) =
        fork2 kSTRn (toSInt16 (((0 : Nat) : Int) + 5000)) :=
  ⟨rfl, by decide, by decide,
    (main_frame sampleConv (sampleArgs 5 0 (some docA)) fork2 fork3 5002 rfl).1 kRTF 5001
      (by decide) (by decide) (by decide),
    (main_frame sampleConv (sampleArgs 5 0 (some docA)) fork2 fork3 5002 rfl).2 lpic2
      [⟨0, 0, 0⟩, ⟨1, 1, 0⟩] (by decide) (by decide) (by decide) (by decide) ⟨0, 0, 0⟩
      (by decide) (by decide)⟩

/-- C4 (index invariant, amended): when the items of the existing index have pairwise
distinct languages and pairwise distinct slot offsets, none of them the offset 27767
(whose resource id 32767 is the largest an `SInt16` holds), the index a completed run
leaves again has pairwise distinct languages and pairwise distinct slot offsets. -/
theorem index_distinct (conv : Nat → List Nat → Option (List Byte)) (a : Args)
    (c c' : Container) (s : Int) (lpic : Resource) (items : List Item)
    (hc : c kLPic 5000 = some lpic) (hi : readItems lpic.data = some items)
    (hlang : (items.map (fun it => it.lang)).Nodup)
    (hres : (items.map (fun it => it.resid)).Nodup)
    (htop : ∀ it ∈ items, it.resid ≠ 27767)
    (hrun : main conv a c = .done c' s) :
    ∃ lpic' items', c' kLPic 5000 = some lpic' ∧ readItems lpic'.data = some items' ∧
      (items'.map (fun it => it.lang)).Nodup ∧ (items'.map (fun it => it.resid)).Nodup := by
  obtain ⟨strsh, rtfb, c1, _, hu, hc'⟩ := main_done_inv conv a c c' s hrun
  rcases updateLPic_cases c c1 lpic a.region _ a.grow items s hc hi hu with e | ⟨hnew, hs, e⟩
  · refine ⟨lpic, items, ?_, hi, hlang, hres⟩
    rw [hc', doit_lpic, e, hc]
  · have hlpic : c' kLPic 5000 = some ⟨lpic.name, grownLPic a.grow lpic.data items.length
        a.region (items.foldl bump 5000) kTextEncodingMacRoman⟩ := by
      rw [hc', doit_lpic, e, ChangedResource_self c lpic _ hc]
    rcases Nat.lt_or_ge items.length 65535 with hlt | hge
    · have hnewItems := readItems_grownLPic a.grow lpic.data items a.region
        (items.foldl bump 5000) kTextEncodingMacRoman hi hlt
      refine ⟨_, _, hlpic, hnewItems, ?_, ?_⟩
      · rw [List.map_append, List.nodup_append]
        refine ⟨hlang, by simp, ?_⟩
        intro x hx hx'
        obtain ⟨it, hit, rfl⟩ := List.mem_map.mp hx
        simp only [List.map_cons, List.map_nil, List.mem_singleton] at hx'
        exact hnew it hit hx'
      · obtain ⟨b1, b2, b3⟩ := foldl_bump_bounds items 5000 (by omega) (by omega)
          (fun it hit => ⟨(readItems_bound hi hit).2, htop it hit⟩)
        rw [List.map_append, List.nodup_append]
        refine ⟨hres, by simp, ?_⟩
        intro x hx hx'
        obtain ⟨it, hit, rfl⟩ := List.mem_map.mp hx
        simp only [List.map_cons, List.map_nil, List.mem_singleton] at hx'
        have h3 := b3 it hit
        rw [hx'] at h3
        generalize items.foldl bump 5000 = r at b1 b2 h3
        unfold toUInt16 toSInt16 at h3
        omega
    · have hcount := ((readItems_eq_some_iff _ _).mp hi).1
      have hle := (rd16_some_bound hcount).1
      have hzero : readItems (grownLPic a.grow lpic.data items.length a.region
          (items.foldl bump 5000) kTextEncodingMacRoman) = some [] := by
        apply (readItems_eq_some_iff _ _).mpr
        refine ⟨?_, fun k hk => absurd hk (by simp)⟩
        rw [count_grownLPic]
        have : items.length + 1 = 65536 := by omega
        rw [this]
        rfl
      exact ⟨_, [], hlpic, hzero, by simp, by simp⟩

/-- C4, counterexample to the claim as stated: the index holds (0, 27768) and
(1, 27767), distinct languages and distinct offsets; the run for region 2 reaches its
end and appends (2, 27768), so two items share an offset. -/
theorem index_distinct_fails :
    readItems ([0, 0, 0, 2, 0, 0, 0x6C, 0x78, 0, 0, 0, 1, 0x6C, 0x77, 0, 0] : List Byte) =
        some [⟨0, 27768, 0⟩, ⟨1, 27767, 0⟩] ∧
      (main sampleConv (sampleArgs 2 0 (some docA))
        (forkWithLPic [0, 0, 0, 2, 0, 0, 0x6C, 0x78, 0, 0, 0, 1, 0x6C, 0x77, 0, 0])).status =
        some 0 ∧
      (forkOf (main sampleConv (sampleArgs 2 0 (some docA))
          (forkWithLPic [0, 0, 0, 2, 0, 0, 0x6C, 0x78, 0, 0, 0, 1, 0x6C, 0x77, 0, 0]))
          (forkWithLPic [0, 0, 0, 2, 0, 0, 0x6C, 0x78, 0, 0, 0, 1, 0x6C, 0x77, 0, 0])
          kLPic 5000).map (fun r => readItems r.data) =
        some (some [⟨0, 27768, 0⟩, ⟨1, 27767, 0⟩, ⟨2, 27768, 0⟩]) ∧
      ¬ ([⟨0, 27768, 0⟩, ⟨1, 27767, 0⟩, ⟨2, 27768, 0⟩].map
        (fun (it : Item) => it.resid)).Nodup := by
  decide

/-- C4, the amended claim at a concrete input: region 5 is added to `fork2`. -/
theorem index_distinct_witness :
    fork2 kLPic 5000 = some lpic2 ∧ readItems lpic2.data = some [⟨0, 0, 0⟩, ⟨1, 1, 0⟩] ∧
      main sampleConv (sampleArgs 5 0 (some docA)) fork2 = .done fork3 5002 ∧
      ∃ lpic' items', fork3 kLPic 5000 = some lpic' ∧ readItems lpic'.data = some items' ∧
        (items'.map (fun it => it.lang)).Nodup ∧ (items'.map (fun it => it.resid)).Nodup :=
  ⟨by decide, by decide, rfl,
    index_distinct sampleConv (sampleArgs 5 0 (some docA)) fork2 fork3 5002 lpic2
      [⟨0, 0, 0⟩, ⟨1, 1, 0⟩] (by decide) (by decide) (by decide) (by decide) (by decide)
      rfl⟩

/-- C6 (string-table round trip): for nine strings whose images in the encoding are at
most 255 bytes each, the STR# record built by the run decodes (16-bit big-endian count,
then length-prefixed strings) to the count 9 and exactly the nine images in order with
no byte left over, and its size is 2 plus the sum of 1 + length over the nine images. -/
theorem strn_roundtrip (conv : Nat → List Nat → Option (List Byte)) (encoding n : Nat)
    (ss : List (List Nat)) (h9 : ss.length = 9)
    (henc : ∀ s ∈ ss, ∃ e, conv encoding s = some e ∧ e.length ≤ 255) :
    ∃ record, buildSTRn conv encoding (PItem.number n :: ss.map PItem.string) = .ok record ∧
      decodeSTRn record = some (9, ss.map (fun s => (conv encoding s).getD []), []) ∧
      record.length = 2 + ((ss.map (fun s => (conv encoding s).getD [])).map
        (fun e => 1 + e.length)).sum := by
  have hloop := pstrLoop_ok conv encoding ss 1 henc
  have hlen : ∀ e ∈ ss.map (fun s => (conv encoding s).getD []), e.length ≤ 255 := by
    intro e he
    obtain ⟨s, hs, rfl⟩ := List.mem_map.mp he
    obtain ⟨e', he', hle⟩ := henc s hs
    rw [he']
    exact hle
  have hdec := decodePStrings_pstrBytes _ [] hlen
  rw [List.append_nil, List.length_map, h9] at hdec
  refine ⟨be16 9 ++ pstrBytes (ss.map (fun s => (conv encoding s).getD [])), ?_, ?_, ?_⟩
  · simp only [buildSTRn, List.tail_cons, hloop, List.length_cons, List.length_map, h9]
  · have h0 : rd16 (be16 9 ++ pstrBytes (ss.map (fun s => (conv encoding s).getD []))) 0 =
        some 9 := rd16_be16_append 9 _
    have hd : (be16 9 ++ pstrBytes (ss.map (fun s => (conv encoding s).getD []))).drop 2 =
        pstrBytes (ss.map (fun s => (conv encoding s).getD [])) := rfl
    simp only [decodeSTRn, h0, hd, hdec]
  · rw [List.length_append, length_pstrBytes]
    rfl

/-- C6 at a concrete input: the nine sample strings under `sampleConv`. -/
theorem strn_roundtrip_witness :
    sampleTexts.length = 9 ∧
      ∃ record, buildSTRn sampleConv 0 (PItem.number 0 :: sampleTexts.map PItem.string) =
          .ok record ∧
        decodeSTRn record = some (9, sampleTexts.map (fun s => (sampleConv 0 s).getD []), []) ∧
        record.length = 2 + ((sampleTexts.map (fun s => (sampleConv 0 s).getD [])).map
          (fun e => 1 + e.length)).sum :=
  ⟨rfl, strn_roundtrip sampleConv 0 0 sampleTexts rfl (fun s hs => ⟨s.map byteOf, rfl, by
      have hall : ∀ s ∈ sampleTexts, (s.map byteOf).length ≤ 255 := by decide
      exact hall s hs⟩)⟩

/-- C7, the run at a failing input: the dictionary array starts with the number 1, yet
every string of the STR# record is converted with encoding 0 (the converter `tagConv`
puts the encoding it was given in front of its output) and the new item has flag 0. -/
theorem encoding_number_unused :
    (forkOf (main tagConv (sampleArgs 0 1 (some docA)) emptyFork) emptyFork kSTRn 5000).map
        (fun r => decodeSTRn r.data) =
        some (some (9, sampleTexts.map (fun s => byteOf 0 :: s.map byteOf), [])) ∧
      (forkOf (main tagConv (sampleArgs 0 1 (some docA)) emptyFork) emptyFork kLPic 5000).map
        (fun r => readItems r.data) = some (some [⟨0, 0, 0⟩]) := by
  decide

/-- C8, the run at a failing input: the license file cannot be opened, yet the run for
region 0 on `fork1` exits with status 0, and the RTF resource that `fork1` had at id
5000 is gone. -/
theorem unopened_document_not_fatal :
    (main sampleConv (sampleArgs 0 0 none) fork1).status = some 0 ∧
      fork1 kRTF 5000 = some ⟨[byteOf 101, byteOf 110], [1, 2, 3]⟩ ∧
      forkOf (main sampleConv (sampleArgs 0 0 none) fork1) fork1 kRTF 5000 = none := by
  decide

/-- C9 (slot allocation for a new region): when the existing index has all its items
inside the record, every slot offset at most 27766 and no item for the region, the run
keeps the items present, raises the count by one (modulo `65536`) and appends an item
whose slot offset is `max(0, o_0 + 1, ..., o_(n-1) + 1)`, which exceeds every offset in
use and is the least number that does, and writes the RTF and STR# resources at id 5000
plus that offset. -/
theorem new_slot_offset (conv : Nat → List Nat → Option (List Byte)) (a : Args) (c : Container)
    (lpic : Resource) (items : List Item) (strsh d : List Byte)
    (hc : c kLPic 5000 = some lpic) (hi : readItems lpic.data = some items)
    (hoff : ∀ it ∈ items, it.resid ≤ 27766)
    (hnew : ∀ it ∈ items, it.lang ≠ toUInt16 a.region)
    (hp : prepare conv a = .ok (strsh, some d)) :
    ∃ c' lpic', main conv a c =
        .done c' (5000 + (((items.map (fun it => it.resid + 1)).foldl max 0 : Nat) : Int)) ∧
      c' kLPic 5000 = some lpic' ∧
      rd16 lpic'.data (4 + 6 * items.length) = some (toUInt16 a.region) ∧
      rd16 lpic'.data (4 + 6 * items.length + 2) =
        some ((items.map (fun it => it.resid + 1)).foldl max 0) ∧
      rd16 lpic'.data 2 = some ((items.length + 1) % 65536) ∧
      (∀ k, k < items.length → readItem lpic'.data k = items[k]?) ∧
      (∀ it ∈ items, it.resid < (items.map (fun it => it.resid + 1)).foldl max 0) ∧
      (∀ m : Nat, (∀ it ∈ items, it.resid < m) →
        (items.map (fun it => it.resid + 1)).foldl max 0 ≤ m) ∧
      c' kRTF (5000 + (((items.map (fun it => it.resid + 1)).foldl max 0 : Nat) : Int)) =
        some ⟨a.isoch, d⟩ ∧
      c' kSTRn (5000 + (((items.map (fun it => it.resid + 1)).foldl max 0 : Nat) : Int)) =
        some ⟨a.isoch, strsh⟩ := by
  have hu := updateLPic_append c lpic a.region kTextEncodingMacRoman a.grow items hc hi hnew
  have hfold := foldl_bump_noWrap items 0 hoff
  simp only [Nat.cast_zero, add_zero] at hfold
  obtain ⟨_, hmem, hleast⟩ := foldl_max_bounds (items.map (fun it => it.resid + 1)) 0
  generalize hM : (items.map (fun it => it.resid + 1)).foldl max 0 = M at *
  have hMle : M ≤ 27767 := by
    apply hleast _ (by omega)
    intro x hx
    obtain ⟨it, hit, rfl⟩ := List.mem_map.mp hx
    have := hoff it hit
    omega
  rw [hfold] at hu
  have hmain := main_of_prepare conv a c strsh (some d) hp _ _ hu
  have hd := drop_grownLPic a.grow lpic.data items.length a.region (5000 + (M : Int))
    kTextEncodingMacRoman
  have hoffset : toUInt16 (5000 + (M : Int) - 5000) = M := by
    unfold toUInt16
    omega
  obtain ⟨r0, r2, _⟩ := rd16_three (toUInt16 a.region) (toUInt16 (5000 + (M : Int) - 5000))
    (if kTextEncodingMacRoman > 0 then 1 else 0) (toUInt16_lt _) (toUInt16_lt _)
    (by split <;> omega)
  rw [← hd, rd16_drop] at r0 r2
  refine ⟨_, ⟨lpic.name, grownLPic a.grow lpic.data items.length a.region (5000 + (M : Int))
    kTextEncodingMacRoman⟩, hmain, ?_, ?_, ?_, count_grownLPic _ _ _ _ _ _, ?_, ?_, ?_,
    doit_rtf _ _ _ _ _, doit_strn _ _ _ _ _⟩
  · rw [doit_lpic, ChangedResource_self c lpic _ hc]
  · exact r0
  · rw [r2, hoffset]
  · intro k hk
    rw [← ((readItems_eq_some_iff _ _).mp hi).2 k hk]
    exact readItem_grownLPic_old _ _ _ _ _ _ k hk (readItems_length_le hi)
  · intro it hit
    have := hmem (it.resid + 1) (List.mem_map.mpr ⟨it, hit, rfl⟩)
    omega
  · intro m hm
    apply hleast m (by omega)
    intro x hx
    obtain ⟨it, hit, rfl⟩ := List.mem_map.mp hx
    have := hm it hit
    omega

/-- C9 at a concrete input: region 5 is added to `fork2`, whose offsets are 0 and 1;
the new offset is 2 and the resources are written at id 5002. -/
theorem new_slot_offset_witness :
    fork2 kLPic 5000 = some lpic2 ∧ readItems lpic2.data = some [⟨0, 0, 0⟩, ⟨1, 1, 0⟩] ∧
      (([⟨0, 0, 0⟩, ⟨1, 1, 0⟩] : List Item).map (fun it => it.resid + 1)).foldl max 0 = 2 ∧
      ∃ c' lpic', main sampleConv (sampleArgs 5 0 (some docA)) fork2 =
          .done c' (5000 + (((([⟨0, 0, 0⟩, ⟨1, 1, 0⟩] : List Item).map
            (fun it => it.resid + 1)).foldl max 0 : Nat) : Int)) ∧
        c' kLPic 5000 = some lpic' ∧
        rd16 lpic'.data (4 + 6 * 2) = some (toUInt16 5) ∧
        rd16 lpic'.data (4 + 6 * 2 + 2) = some 2 := by
  refine ⟨by decide, by decide, by decide, ?_⟩
  obtain ⟨c', lpic', h1, h2, h3, h4, _⟩ :=
    new_slot_offset sampleConv (sampleArgs 5 0 (some docA)) fork2 lpic2
      [⟨0, 0, 0⟩, ⟨1, 1, 0⟩] sampleSTRn docA.got (by decide) (by decide) (by decide)
      (by decide) rfl
  exact ⟨c', lpic', h1, h2, h3, h4⟩

/-- C10 (index layout under an append): for an existing record of byte length
`4 + 6 * cnt` whose count field is `cnt < 65535` and which has no item for the region, the
run leaves a record of length `4 + 6 * (cnt + 1)` with count `cnt + 1`, the same first
two bytes (defLang) and the same `6 * cnt` item bytes, ending in the big-endian images
of the region, the new slot offset and the flag (which the run computes from its
variable `encoding`, always 0).  With no record, the run creates one of length 10 with
defLang 0 and count 1. -/
theorem lpic_layout (conv : Nat → List Nat → Option (List Byte)) (a : Args) (c : Container)
    (strsh : List Byte) (rtfb : Option (List Byte)) (hp : prepare conv a = .ok (strsh, rtfb)) :
    (∀ (lpic : Resource) (cnt : Nat), c kLPic 5000 = some lpic →
      lpic.data.length = 4 + 6 * cnt → rd16 lpic.data 2 = some cnt → cnt < 65535 →
      (∀ i, i < cnt → rd16 lpic.data (4 + 6 * i) ≠ some (toUInt16 a.region)) →
      ∃ c' s lpic', main conv a c = .done c' s ∧ c' kLPic 5000 = some lpic' ∧
        lpic'.data.length = 4 + 6 * (cnt + 1) ∧ rd16 lpic'.data 2 = some (cnt + 1) ∧
        lpic'.data.take 2 = lpic.data.take 2 ∧
        (lpic'.data.drop 4).take (6 * cnt) = lpic.data.drop 4 ∧
        lpic'.data.drop (4 + 6 * cnt) =
          be16 (toUInt16 a.region) ++ be16 (toUInt16 (s - 5000)) ++ be16 0) ∧
    (c kLPic 5000 = none →
      ∃ c' lpic', main conv a c = .done c' 5000 ∧ c' kLPic 5000 = some lpic' ∧
        lpic'.data.length = 10 ∧ rd16 lpic'.data 0 = some 0 ∧ rd16 lpic'.data 2 = some 1 ∧
        lpic'.data.drop 4 = be16 (toUInt16 a.region) ++ be16 0 ++ be16 0) := by
  constructor
  · intro lpic cnt hc hlen hcnt hlt hnew
    obtain ⟨items, hi, hil⟩ := readItems_of_length lpic.data cnt hcnt (by omega)
    have hnew' : ∀ it ∈ items, it.lang ≠ toUInt16 a.region := by
      intro it hit e
      obtain ⟨k, hk, hrk⟩ := mem_readItems hi hit
      have := (readItem_eq_some.mp hrk).1
      rw [e] at this
      exact hnew k (by omega) this
    have hu := updateLPic_append c lpic a.region kTextEncodingMacRoman a.grow items hc hi hnew'
    rw [hil] at hu
    have hmain := main_of_prepare conv a c strsh rtfb hp _ _ hu
    have hget := getElem?_grownLPic a.grow lpic.data cnt a.region (items.foldl bump 5000)
      kTextEncodingMacRoman
    refine ⟨_, _, ⟨lpic.name, grownLPic a.grow lpic.data cnt a.region (items.foldl bump 5000)
      kTextEncodingMacRoman⟩, hmain, ?_, length_grownLPic _ _ _ _ _ _, ?_, ?_, ?_,
      drop_grownLPic _ _ _ _ _ _⟩
    · rw [doit_lpic, ChangedResource_self c lpic _ hc]
    · rw [count_grownLPic, Nat.mod_eq_of_lt (by omega)]
    · apply List.ext_getElem?
      intro m
      rw [List.getElem?_take, List.getElem?_take]
      by_cases hm : m < 2
      · rw [if_pos hm, if_pos hm]
        exact hget m (by omega) (by omega) (by omega) (by omega)
      · rw [if_neg hm, if_neg hm]
    · apply List.ext_getElem?
      intro m
      rw [List.getElem?_take, List.getElem?_drop, List.getElem?_drop]
      by_cases hm : m < 6 * cnt
      · rw [if_pos hm]
        exact hget (4 + m) (by omega) (by omega) (by omega) (by omega)
      · rw [if_neg hm]
        symm
        exact List.getElem?_eq_none (by omega)
  · intro hc
    obtain ⟨c1, hu, hc1⟩ := updateLPic_create c a.region kTextEncodingMacRoman a.grow hc
    have hmain := main_of_prepare conv a c strsh rtfb hp _ _ hu
    have hd := drop_grownLPic (fun _ => 0) (List.replicate 4 0) 0 a.region 5000
      kTextEncodingMacRoman
    have hshape : grownLPic (fun _ => 0) (List.replicate 4 0) 0 a.region 5000
        kTextEncodingMacRoman =
        storeItem (wr16 (List.replicate 10 0) 2 1) 0 a.region 5000 kTextEncodingMacRoman := rfl
    rw [hshape] at hd
    refine ⟨_, ⟨[], storeItem (wr16 (List.replicate 10 0) 2 1) 0 a.region 5000
      kTextEncodingMacRoman⟩, hmain, ?_, ?_, ?_, ?_, ?_⟩
    · rw [doit_lpic, hc1]
    · simp only [storeItem, length_wr16, List.length_replicate]
    · simp only [storeItem]
      rw [rd16_wr16_other _ _ _ _ (by omega), rd16_wr16_other _ _ _ _ (by omega),
        rd16_wr16_other _ _ _ _ (by omega), rd16_wr16_other _ _ _ _ (by omega)]
      rfl
    · simp only [storeItem]
      rw [rd16_wr16_other _ _ _ _ (by omega), rd16_wr16_other _ _ _ _ (by omega),
        rd16_wr16_other _ _ _ _ (by omega),
        rd16_wr16_same _ _ _ (by simp)]
    · exact hd

/-- C10 at a concrete input: region 5 is added to `fork2`, whose LPic has 16 bytes and
count 2. -/
theorem lpic_layout_witness :
    prepare sampleConv (sampleArgs 5 0 (some docA)) = .ok (sampleSTRn, some docA.got) ∧
      fork2 kLPic 5000 = some lpic2 ∧ lpic2.data.length = 4 + 6 * 2 ∧
      ∃ c' s lpic', main sampleConv (sampleArgs 5 0 (some docA)) fork2 = .done c' s ∧
        c' kLPic 5000 = some lpic' ∧ lpic'.data.length = 4 + 6 * (2 + 1) ∧
        rd16 lpic'.data 2 = some (2 + 1) ∧ lpic'.data.take 2 = lpic2.data.take 2 ∧
        (lpic'.data.drop 4).take (6 * 2) = lpic2.data.drop 4 ∧
        lpic'.data.drop (4 + 6 * 2) =
          be16 (toUInt16 (sampleArgs 5 0 (some docA)).region) ++ be16 (toUInt16 (s - 5000)) ++
            be16 0 :=
  ⟨rfl, by decide, by decide,
    (lpic_layout sampleConv (sampleArgs 5 0 (some docA)) fork2 sampleSTRn (some docA.got) rfl).1
      lpic2 2 (by decide) (by decide) (by decide) (by decide) (by decide)⟩

end AddLicense
